import Mathlib

/-!
Verification of the length-bucketed distributed batch sampler
(DistributedBucketSampler in data_utils.py).

The sampler is embedded shallowly: every Python loop becomes a structural
recursion over lists, the mutable sampler object becomes a record whose
update is explicit state passing, and the torch pseudo-random generator is
abstracted as a deterministic state-passing function that is assumed to
emit permutations.
-/

/-- Recursive binary search from DistributedBucketSampler, realized with an
explicit fuel argument so that it is structurally recursive; the fuel is
instantiated with the interval width, which strictly decreases on each
recursive call of the source.  Returns none where the source returns -1. -/
def bisectAux (bnd : List Nat) (x : Nat) : Nat → Nat → Nat → Option Nat
  | 0, _, _ => none
  | fuel + 1, lo, hi =>
    if lo < hi then
      if bnd.getD ((hi + lo) / 2) 0 < x ∧ x ≤ bnd.getD ((hi + lo) / 2 + 1) 0 then
        some ((hi + lo) / 2)
      else if x ≤ bnd.getD ((hi + lo) / 2) 0 then
        bisectAux bnd x fuel lo ((hi + lo) / 2)
      else
        bisectAux bnd x fuel ((hi + lo) / 2 + 1) hi
    else none

/-- The method _bisect(x, lo, hi) of the sampler. -/
def bisect (bnd : List Nat) (x lo hi : Nat) : Option Nat :=
  bisectAux bnd x (hi - lo) lo hi

/-- Classification loop of _create_buckets: walk the lengths in dataset
order, look up the bucket with _bisect over the full boundary range and
append the running sample index to that bucket. -/
def assignAux (bnd : List Nat) : List (List Nat) → Nat → List Nat → List (List Nat)
  | bks, _, [] => bks
  | bks, i, len :: rest =>
    assignAux bnd
      (match bisect bnd len 0 (bnd.length - 1) with
        | some idx => bks.set idx (bks.getD idx [] ++ [i])
        | none => bks)
      (i + 1) rest

/-- Bucket contents before pruning: one initially empty bucket per
boundary interval, filled by the classification loop. -/
def assignBuckets (lengths bnd : List Nat) : List (List Nat) :=
  assignAux bnd (List.replicate (bnd.length - 1) []) 0 lengths

/-- Pruning loop of _create_buckets: for i in range(len(buckets)-1, 0, -1),
pop buckets[i] and boundaries[i+1] whenever buckets[i] is empty.  Note the
loop stops at index 1, so bucket 0 is never inspected. -/
def pruneBuckets : Nat → List (List Nat) → List Nat → List (List Nat) × List Nat
  | 0, bks, bnd => (bks, bnd)
  | j + 1, bks, bnd =>
    if (bks.getD (j + 1) []).isEmpty then
      pruneBuckets j (bks.eraseIdx (j + 1)) (bnd.eraseIdx (j + 2))
    else
      pruneBuckets j bks bnd

/-- Per-bucket padded sample count: len_bucket + rem where
rem = (total_batch_size - len_bucket mod total_batch_size) mod total_batch_size. -/
def padCount (tbs L : Nat) : Nat := L + (tbs - L % tbs) % tbs

/-- The whole _create_buckets computation: classify, prune (mutating the
boundary list, modelled by returning the shortened list), and compute the
padded counts.  Result: (buckets, num_samples_per_bucket, boundaries). -/
def createBuckets (lengths bnd : List Nat) (nr bs : Nat) :
    List (List Nat) × List Nat × List Nat :=
  let bks0 := assignBuckets lengths bnd
  let pr := pruneBuckets (bks0.length - 1) bks0 bnd
  (pr.1, pr.1.map (fun b => padCount (nr * bs) b.length), pr.2)

/-- The sampler state: construction-time fields plus the mutable epoch
counter and the batches cache written by each iteration. -/
structure Sampler where
  lengths : List Nat
  batchSize : Nat
  boundaries : List Nat
  numReplicas : Nat
  rank : Nat
  shuffle : Bool
  buckets : List (List Nat)
  numSamplesPerBucket : List Nat
  totalSize : Nat
  numSamples : Nat
  epoch : Nat
  batches : List (List Nat)

/-- Sampler construction (__init__): store the inputs, build the buckets,
and derive total_size and num_samples.  The stored boundaries are the list
after the in-place pruning pops. -/
def mkSampler (lengths : List Nat) (batchSize : Nat) (bnd : List Nat)
    (nr rank : Nat) (shuffle : Bool) : Sampler :=
  let cb := createBuckets lengths bnd nr batchSize
  { lengths := lengths
    batchSize := batchSize
    boundaries := cb.2.2
    numReplicas := nr
    rank := rank
    shuffle := shuffle
    buckets := cb.1
    numSamplesPerBucket := cb.2.1
    totalSize := cb.2.1.sum
    numSamples := cb.2.1.sum / nr
    epoch := 0
    batches := [] }

/-- The set_epoch call inherited from the torch DistributedSampler. -/
def setEpoch (s : Sampler) (e : Nat) : Sampler := { s with epoch := e }

/-- Modelled from the spec: the epoch-seeded torch.Generator together with
torch.randperm, which are external to the repository.  A generator model
maps a state and a size n to a drawn list and the advanced state; the spec
only relies on the draw being a deterministic function of the state and on
it being a permutation of range n. -/
def RngModel : Type := Nat → Nat → List Nat × Nat

/-- The permutation contract of torch.randperm: every draw is a
permutation of range n. -/
def IsPermGen (rp : RngModel) : Prop :=
  ∀ st n, ((rp st n).1).Perm (List.range n)

/-- A concrete generator model satisfying the contract: it always draws
the identity permutation. -/
def idGen : RngModel := fun st n => (List.range n, st + 1)

/-- One torch.randperm draw per bucket, consumed in bucket order, with the
generator state threaded through. -/
def permEach (rp : RngModel) : Nat → List (List Nat) → List (List Nat) × Nat
  | st, [] => ([], st)
  | st, b :: t =>
    let p := rp st b.length
    let rest := permEach rp p.2 t
    (p.1 :: rest.1, rest.2)

/-- The per-epoch index lists of __iter__: a fresh permutation per bucket
when shuffling, the identity order otherwise (the generator is then not
consumed). -/
def epochState (rp : RngModel) (ep : Nat) (shuffle : Bool)
    (bks : List (List Nat)) : List (List Nat) × Nat :=
  if shuffle then permEach rp ep bks
  else (bks.map (fun b => List.range b.length), ep)

/-- Wraparound padding of __iter__:
ids + ids * (rem div len) + ids[:rem mod len] with rem = nsb - len. -/
def padIds (ids : List Nat) (lenB nsb : Nat) : List Nat :=
  ids ++ (List.replicate ((nsb - lenB) / lenB) ids).flatten
      ++ ids.take ((nsb - lenB) % lenB)

/-- Python extended slice l[r::n]: every n-th element starting at offset r. -/
def strideEvery {α : Type} : List α → Nat → Nat → List α
  | [], _, _ => []
  | a :: t, 0, n => a :: strideEvery t (n - 1) n
  | _ :: t, r + 1, n => strideEvery t r n

/-- Batching loop of __iter__: the j-th batch is the slice
l[j*bs:(j+1)*bs], for j in range(len(l) div bs). -/
def chunkList {α : Type} (l : List α) (k : Nat) : List (List α) :=
  (List.range (l.length / k)).map (fun j => (l.drop (j * k)).take k)

/-- Zip of the bucket loop state of __iter__: the bucket, its index list
for this epoch, and its padded sample count. -/
def zip3 : List (List Nat) → List (List Nat) → List Nat →
    List (List Nat × List Nat × Nat)
  | b :: bt, i :: it, n :: nt => (b, i, n) :: zip3 bt it nt
  | _, _, _ => []

/-- Per-bucket part of the batching loop: pad, take the strided shard of
this rank, cut into batches, and translate positions to sample indices. -/
def bucketBatches (bs nr rank : Nat) (bucket ids : List Nat) (nsb : Nat) :
    List (List Nat) :=
  (chunkList (strideEvery (padIds ids bucket.length nsb) rank nr) bs).map
    (fun ch => ch.map (fun idx => bucket.getD idx 0))

/-- The bucket loop of __iter__, skipping empty buckets. -/
def batchesOfBuckets (bs nr rank : Nat) :
    List (List Nat × List Nat × Nat) → List (List Nat)
  | [] => []
  | (bucket, ids, nsb) :: t =>
    if bucket.isEmpty then batchesOfBuckets bs nr rank t
    else bucketBatches bs nr rank bucket ids nsb ++ batchesOfBuckets bs nr rank t

/-- One full __iter__ call: seed the generator from the epoch, draw the
per-bucket index lists, build the batches, shuffle the batch order when
shuffling, and store the result in the batches field. -/
def iterStep (rp : RngModel) (s : Sampler) : List (List Nat) × Sampler :=
  let gi := epochState rp s.epoch s.shuffle s.buckets
  let bts := batchesOfBuckets s.batchSize s.numReplicas s.rank
    (zip3 s.buckets gi.1 s.numSamplesPerBucket)
  let final := if s.shuffle then (rp gi.2 bts.length).1.map (fun i => bts.getD i [])
    else bts
  (final, { s with batches := final })

/-- The set of positions a rank reads from a padded bucket list: all
positions congruent to the rank modulo the replica count. -/
def stridePositions (r n len : Nat) : List Nat :=
  (List.range len).filter (fun q => q % n == r)

/-- Sample-index content of one padded bucket tile: the padded position
list translated through the bucket, empty for a skipped empty bucket. -/
def tileOf (bucket ids : List Nat) (nsb : Nat) : List Nat :=
  if bucket.isEmpty then []
  else (padIds ids bucket.length nsb).map (fun idx => bucket.getD idx 0)

/-! ### Faithfulness of the fueled binary search -/

theorem bisectAux_fuel (bnd : List Nat) (x : Nat) :
    ∀ f1 f2 lo hi, hi - lo ≤ f1 → hi - lo ≤ f2 →
      bisectAux bnd x f1 lo hi = bisectAux bnd x f2 lo hi := by
  intro f1
  induction f1 with
  | zero =>
    intro f2 lo hi h1 h2
    have hlh : ¬ lo < hi := by omega
    cases f2 with
    | zero => rfl
    | succ g => simp [bisectAux, hlh]
  | succ f ih =>
    intro f2 lo hi h1 h2
    by_cases hlh : lo < hi
    · cases f2 with
      | zero => omega
      | succ g =>
        simp only [bisectAux]
        rw [if_pos hlh, if_pos hlh]
        by_cases hA : bnd.getD ((hi + lo) / 2) 0 < x ∧ x ≤ bnd.getD ((hi + lo) / 2 + 1) 0
        · rw [if_pos hA, if_pos hA]
        · rw [if_neg hA, if_neg hA]
          by_cases hB : x ≤ bnd.getD ((hi + lo) / 2) 0
          · rw [if_pos hB, if_pos hB]
            exact ih g lo ((hi + lo) / 2) (by omega) (by omega)
          · rw [if_neg hB, if_neg hB]
            exact ih g ((hi + lo) / 2 + 1) hi (by omega) (by omega)
    · cases f2 with
      | zero => simp [bisectAux, hlh]
      | succ g => simp [bisectAux, hlh]

/-- The fueled search satisfies exactly the recurrence of the source
method _bisect. -/
theorem bisect_eq (bnd : List Nat) (x lo hi : Nat) :
    bisect bnd x lo hi =
      if lo < hi then
        if bnd.getD ((hi + lo) / 2) 0 < x ∧ x ≤ bnd.getD ((hi + lo) / 2 + 1) 0 then
          some ((hi + lo) / 2)
        else if x ≤ bnd.getD ((hi + lo) / 2) 0 then bisect bnd x lo ((hi + lo) / 2)
        else bisect bnd x ((hi + lo) / 2 + 1) hi
      else none := by
  by_cases hlh : lo < hi
  · have h1 : hi - lo = (hi - lo - 1) + 1 := by omega
    rw [bisect, h1]
    simp only [bisectAux]
    rw [if_pos hlh, if_pos hlh]
    by_cases hA : bnd.getD ((hi + lo) / 2) 0 < x ∧ x ≤ bnd.getD ((hi + lo) / 2 + 1) 0
    · rw [if_pos hA, if_pos hA]
    · rw [if_neg hA, if_neg hA]
      by_cases hB : x ≤ bnd.getD ((hi + lo) / 2) 0
      · rw [if_pos hB, if_pos hB, bisect]
        exact bisectAux_fuel bnd x (hi - lo - 1) ((hi + lo) / 2 - lo) lo ((hi + lo) / 2)
          (by omega) (by omega)
      · rw [if_neg hB, if_neg hB, bisect]
        exact bisectAux_fuel bnd x (hi - lo - 1) (hi - ((hi + lo) / 2 + 1)) ((hi + lo) / 2 + 1) hi
          (by omega) (by omega)
  · rw [if_neg hlh]
    rw [bisect]
    have h0 : hi - lo = 0 := by omega
    rw [h0]
    rfl

theorem bisectAux_range (bnd : List Nat) (x : Nat) :
    ∀ fuel lo hi, bisectAux bnd x fuel lo hi = none ∨
      ∃ mid, bisectAux bnd x fuel lo hi = some mid ∧ lo ≤ mid ∧ mid < hi := by
  intro fuel
  induction fuel with
  | zero => intro lo hi; exact Or.inl rfl
  | succ f ih =>
    intro lo hi
    by_cases hlh : lo < hi
    · simp only [bisectAux]
      rw [if_pos hlh]
      by_cases hA : bnd.getD ((hi + lo) / 2) 0 < x ∧ x ≤ bnd.getD ((hi + lo) / 2 + 1) 0
      · rw [if_pos hA]
        exact Or.inr ⟨(hi + lo) / 2, rfl, by omega, by omega⟩
      · rw [if_neg hA]
        by_cases hB : x ≤ bnd.getD ((hi + lo) / 2) 0
        · rw [if_pos hB]
          rcases ih lo ((hi + lo) / 2) with h | ⟨m, hm, h1, h2⟩
          · exact Or.inl h
          · exact Or.inr ⟨m, hm, h1, by omega⟩
        · rw [if_neg hB]
          rcases ih ((hi + lo) / 2 + 1) hi with h | ⟨m, hm, h1, h2⟩
          · exact Or.inl h
          · exact Or.inr ⟨m, hm, by omega, h2⟩
    · simp [bisectAux, hlh]

/-- C10: the recursive binary search _bisect terminates for all bound
pairs (its interval width strictly decreases, realized by the fuel), and
it returns either the no-bucket marker or a bucket index mid with
lo <= mid < hi. -/
theorem c10_bisect_range (bnd : List Nat) (x lo hi : Nat) :
    bisect bnd x lo hi = none ∨
      ∃ mid, bisect bnd x lo hi = some mid ∧ lo ≤ mid ∧ mid < hi :=
  bisectAux_range bnd x (hi - lo) lo hi

/-! ### Padded-count arithmetic -/

theorem padCount_mod (t L : Nat) (ht : 0 < t) : padCount t L % t = 0 := by
  unfold padCount
  have h1 : L % t < t := Nat.mod_lt _ ht
  by_cases h0 : L % t = 0
  · have e1 : (t - L % t) % t = 0 := by rw [h0, Nat.sub_zero, Nat.mod_self]
    rw [e1, Nat.add_zero, h0]
  · have e1 : (t - L % t) % t = t - L % t := Nat.mod_eq_of_lt (by omega)
    rw [e1]
    have hdm := Nat.div_add_mod L t
    have e2 : L + (t - L % t) = t * (L / t) + t := by omega
    rw [e2]
    have e3 : t * (L / t) + t = t * (L / t + 1) := by ring
    rw [e3, Nat.mul_mod_right]

theorem padCount_zero (t : Nat) : padCount t 0 = 0 := by
  simp [padCount, Nat.zero_mod, Nat.sub_zero, Nat.mod_self]

/-- C4: num_samples_per_bucket is computed bucketwise by exactly the
formula len + ((nr*bs - len mod (nr*bs)) mod (nr*bs)), and every padded
count is a multiple of nr*bs. -/
theorem c4_padded_counts (lengths bnd : List Nat) (nr bs : Nat) (h : 0 < nr * bs) :
    (createBuckets lengths bnd nr bs).2.1
        = (createBuckets lengths bnd nr bs).1.map
            (fun b => b.length + ((nr * bs - b.length % (nr * bs)) % (nr * bs)))
      ∧ ∀ m ∈ (createBuckets lengths bnd nr bs).2.1, m % (nr * bs) = 0 := by
  constructor
  · rfl
  · intro m hm
    have hm2 : m ∈ (createBuckets lengths bnd nr bs).1.map
        (fun b => padCount (nr * bs) b.length) := hm
    simp only [List.mem_map] at hm2
    obtain ⟨b, _, rfl⟩ := hm2
    exact padCount_mod _ _ h

theorem c4_padded_counts_witness :
    (createBuckets [5, 6, 7] [4, 10] 2 2).2.1
        = (createBuckets [5, 6, 7] [4, 10] 2 2).1.map
            (fun b => b.length + ((2 * 2 - b.length % (2 * 2)) % (2 * 2)))
      ∧ (4 : Nat) % (2 * 2) = 0 :=
  ⟨(c4_padded_counts [5, 6, 7] [4, 10] 2 2 (by decide)).1,
   (c4_padded_counts [5, 6, 7] [4, 10] 2 2 (by decide)).2 4 (by decide)⟩

/-! ### Determinism -/

/-- C1: for a fixed tuple (lengths, boundaries, batch_size, num_replicas,
epoch) and a fixed rank, running the plan-and-build computation of
__iter__ twice in a row yields the identical batch sequence: the generator
is reseeded solely from the epoch field at the start of every iteration,
and iteration writes only the batches cache. -/
theorem c1_determinism (rp : RngModel) (lengths bnd : List Nat)
    (bs nr rank ep : Nat) (shuffle : Bool) :
    (iterStep rp ((iterStep rp (setEpoch (mkSampler lengths bs bnd nr rank shuffle) ep)).2)).1
      = (iterStep rp (setEpoch (mkSampler lengths bs bnd nr rank shuffle) ep)).1 := rfl

/-! ### Boundary mutation and degenerate construction -/

/-- C9: the constructed sampler stores the pruning-shortened boundary
list (the in-place pops on the caller-supplied list, modelled by explicit
state passing), and on a concrete input a second construction fed the
shared list observes it already shortened and classifies differently. -/
theorem c9_boundary_mutation :
    (∀ (lengths bnd : List Nat) (bs nr rank : Nat) (shuffle : Bool),
        (mkSampler lengths bs bnd nr rank shuffle).boundaries
          = (pruneBuckets ((assignBuckets lengths bnd).length - 1)
              (assignBuckets lengths bnd) bnd).2)
      ∧ (mkSampler [2] 1 [1, 2, 3] 1 0 true).boundaries = [1, 2]
      ∧ (mkSampler [3] 1 ((mkSampler [2] 1 [1, 2, 3] 1 0 true).boundaries) 1 0 true).buckets
          = [[]]
      ∧ (mkSampler [3] 1 [1, 2, 3] 1 0 true).buckets = [[], [0]] :=
  ⟨fun _ _ _ _ _ _ => rfl, by decide, by decide, by decide⟩

theorem assignAux_keep (bnd : List Nat) :
    ∀ (rest : List Nat) (bks : List (List Nat)) (i : Nat),
      (∀ len ∈ rest, bisect bnd len 0 (bnd.length - 1) = none) →
      assignAux bnd bks i rest = bks := by
  intro rest
  induction rest with
  | nil => intro bks i _; rfl
  | cons a t ih =>
    intro bks i h
    have ha : bisect bnd a 0 (bnd.length - 1) = none := h a (by simp)
    rw [assignAux, ha]
    exact ih bks (i + 1) (fun len hl => h len (by simp [hl]))

theorem pruneBuckets_sublist :
    ∀ (j : Nat) (bks : List (List Nat)) (bnd : List Nat),
      ((pruneBuckets j bks bnd).1).Sublist bks := by
  intro j
  induction j with
  | zero => intro bks bnd; exact List.Sublist.refl bks
  | succ j ih =>
    intro bks bnd
    rw [pruneBuckets]
    by_cases h : (bks.getD (j + 1) []).isEmpty
    · rw [if_pos h]
      exact (ih _ _).trans (List.eraseIdx_sublist bks (j + 1))
    · rw [if_neg h]
      exact ih bks bnd

/-- C8 counterexample: with a boundary list of fewer than 2 entries the
construction does not fail at all; it completes and returns a sampler
with no buckets, zero samples and the boundary list untouched (there is
no ConfigurationError anywhere on this code path). -/
theorem c8_no_error_counterexample :
    (mkSampler [3] 1 [5] 1 0 true).buckets = []
      ∧ (mkSampler [3] 1 [5] 1 0 true).numSamples = 0
      ∧ (mkSampler [3] 1 [5] 1 0 true).boundaries = [5] := by decide

/-- C8 amended: construction never raises; degenerate inputs silently
yield a degenerate sampler.  With fewer than 2 boundaries there are no
buckets and num_samples is 0; when every sample is discarded num_samples
is 0 as well. -/
theorem c8_amended (lengths : List Nat) (bs : Nat) (bnd : List Nat)
    (nr rank : Nat) (shuffle : Bool) :
    (bnd.length < 2 →
        (mkSampler lengths bs bnd nr rank shuffle).buckets = []
          ∧ (mkSampler lengths bs bnd nr rank shuffle).numSamples = 0)
      ∧ ((∀ len ∈ lengths, bisect bnd len 0 (bnd.length - 1) = none) →
          (mkSampler lengths bs bnd nr rank shuffle).numSamples = 0) := by
  constructor
  · intro h2
    have hrep : List.replicate (bnd.length - 1) ([] : List Nat) = [] := by
      have : bnd.length - 1 = 0 := by omega
      rw [this]
      rfl
    have hass : assignBuckets lengths bnd = [] := by
      rw [assignBuckets, hrep]
      exact assignAux_keep bnd lengths [] 0 (fun len _ => by
        rcases bisectAux_range bnd len (bnd.length - 1) 0 (bnd.length - 1) with h | ⟨m, _, hm1, hm2⟩
        · exact h
        · omega)
    have hbks : (createBuckets lengths bnd nr bs).1 = [] := by
      show (pruneBuckets ((assignBuckets lengths bnd).length - 1)
        (assignBuckets lengths bnd) bnd).1 = []
      rw [hass]
      rfl
    refine ⟨hbks, ?_⟩
    show (createBuckets lengths bnd nr bs).2.1.sum / nr = 0
    have : (createBuckets lengths bnd nr bs).2.1
        = (createBuckets lengths bnd nr bs).1.map (fun b => padCount (nr * bs) b.length) := rfl
    rw [this, hbks]
    simp
  · intro hall
    have hass : assignBuckets lengths bnd = List.replicate (bnd.length - 1) [] := by
      rw [assignBuckets]
      exact assignAux_keep bnd lengths _ 0 hall
    have hmem : ∀ b ∈ (createBuckets lengths bnd nr bs).1, b = [] := by
      intro b hb
      have hsub : ((createBuckets lengths bnd nr bs).1).Sublist (assignBuckets lengths bnd) :=
        pruneBuckets_sublist _ _ _
      have : b ∈ assignBuckets lengths bnd := hsub.mem hb
      rw [hass] at this
      exact (List.mem_replicate.mp this).2
    show (createBuckets lengths bnd nr bs).2.1.sum / nr = 0
    have hzero : (createBuckets lengths bnd nr bs).2.1.sum = 0 := by
      apply List.sum_eq_zero
      intro m hm
      have hm2 : m ∈ (createBuckets lengths bnd nr bs).1.map
          (fun b => padCount (nr * bs) b.length) := hm
      simp only [List.mem_map] at hm2
      obtain ⟨b, hb, rfl⟩ := hm2
      rw [hmem b hb]
      exact padCount_zero _
    rw [hzero]
    exact Nat.zero_div nr

theorem c8_amended_witness :
    ((mkSampler [3] 1 [5] 1 0 true).buckets = []
        ∧ (mkSampler [3] 1 [5] 1 0 true).numSamples = 0)
      ∧ (mkSampler [7] 2 [1, 2, 3] 1 0 true).numSamples = 0 :=
  ⟨(c8_amended [3] 1 [5] 1 0 true).1 (by decide),
   (c8_amended [7] 2 [1, 2, 3] 1 0 true).2 (by decide)⟩

/-- C7 counterexample: the pruning loop never inspects bucket 0, so a
sampler can end construction with an empty first bucket still present in
self.buckets. -/
theorem c7_counterexample :
    ¬ (∀ b ∈ (createBuckets [3] [1, 2, 3] 1 1).1, b ≠ []) := by decide

/-! ### The pruning invariant -/

theorem assignAux_length (bnd : List Nat) :
    ∀ (rest : List Nat) (bks : List (List Nat)) (i : Nat),
      (assignAux bnd bks i rest).length = bks.length := by
  intro rest
  induction rest with
  | nil => intro bks i; rfl
  | cons a t ih =>
    intro bks i
    rw [assignAux]
    cases h : bisect bnd a 0 (bnd.length - 1) with
    | none => exact ih _ _
    | some idx => rw [ih]; exact List.length_set bks idx _

theorem assignBuckets_length (lengths bnd : List Nat) :
    (assignBuckets lengths bnd).length = bnd.length - 1 := by
  rw [assignBuckets, assignAux_length, List.length_replicate]

theorem getD_eraseIdx_ge (l : List (List Nat)) (k i : Nat)
    (hk : k ≤ i) (hi : i + 1 < l.length) :
    (l.eraseIdx k).getD i [] = l.getD (i + 1) [] := by
  have hkl : k < l.length := by omega
  have hlen : (l.eraseIdx k).length = l.length - 1 := by
    rw [List.length_eraseIdx, if_pos hkl]
  have hi2 : i < (l.eraseIdx k).length := by omega
  rw [List.getD_eq_getElem _ _ hi2, List.getD_eq_getElem _ _ hi]
  rw [List.getElem_eraseIdx]
  rw [dif_neg (by omega)]

theorem pruneBuckets_spec :
    ∀ (j : Nat) (bks : List (List Nat)) (bnd : List Nat),
      j < bks.length → bnd.length = bks.length + 1 →
      (∀ i, j < i → i < bks.length → bks.getD i [] ≠ []) →
      (∀ i, 0 < i → i < (pruneBuckets j bks bnd).1.length →
          (pruneBuckets j bks bnd).1.getD i [] ≠ [])
        ∧ (pruneBuckets j bks bnd).2.length = (pruneBuckets j bks bnd).1.length + 1 := by
  intro j
  induction j with
  | zero =>
    intro bks bnd hj hlen hinv
    exact ⟨fun i hi0 hil => hinv i hi0 hil, hlen⟩
  | succ j ih =>
    intro bks bnd hj hlen hinv
    rw [pruneBuckets]
    by_cases hemp : (bks.getD (j + 1) []).isEmpty
    · rw [if_pos hemp]
      have hel : (bks.eraseIdx (j + 1)).length = bks.length - 1 := by
        rw [List.length_eraseIdx, if_pos hj]
      apply ih
      · omega
      · have hbl : (bnd.eraseIdx (j + 2)).length = bnd.length - 1 := by
          rw [List.length_eraseIdx, if_pos (by omega)]
        omega
      · intro i hi hil
        rw [hel] at hil
        have hil2 : i + 1 < bks.length := by omega
        rw [getD_eraseIdx_ge bks (j + 1) i (by omega) hil2]
        exact hinv (i + 1) (by omega) hil2
    · rw [if_neg hemp]
      apply ih bks bnd (by omega) hlen
      intro i hi hil
      by_cases hieq : i = j + 1
      · subst hieq
        intro hcon
        rw [hcon] at hemp
        exact hemp rfl
      · exact hinv i (by omega) hil

/-- C7 amended: after construction every bucket at a positive index is
non-empty and the boundary list stays one longer than the bucket list;
but bucket 0, which the pruning loop never inspects, may remain empty. -/
theorem c7_amended (lengths bnd : List Nat) (nr bs : Nat) (h : 2 ≤ bnd.length) :
    (∀ i, 0 < i → i < (createBuckets lengths bnd nr bs).1.length →
        (createBuckets lengths bnd nr bs).1.getD i [] ≠ [])
      ∧ (createBuckets lengths bnd nr bs).2.2.length
          = (createBuckets lengths bnd nr bs).1.length + 1 := by
  have hlen : (assignBuckets lengths bnd).length = bnd.length - 1 :=
    assignBuckets_length lengths bnd
  exact pruneBuckets_spec ((assignBuckets lengths bnd).length - 1)
    (assignBuckets lengths bnd) bnd (by omega) (by omega)
    (fun i hi hil => by omega)

theorem c7_amended_witness :
    (createBuckets [3] [1, 2, 3] 1 1).1.getD 1 [] ≠ []
      ∧ (createBuckets [3] [1, 2, 3] 1 1).2.2.length
          = (createBuckets [3] [1, 2, 3] 1 1).1.length + 1 :=
  ⟨(c7_amended [3] [1, 2, 3] 1 1 (by decide)).1 1 (by decide) (by decide),
   (c7_amended [3] [1, 2, 3] 1 1 (by decide)).2⟩

/-! ### Interval correctness of the binary search -/

theorem bisectAux_sound (bnd : List Nat) (x : Nat) :
    ∀ fuel lo hi mid, bisectAux bnd x fuel lo hi = some mid →
      bnd.getD mid 0 < x ∧ x ≤ bnd.getD (mid + 1) 0 := by
  intro fuel
  induction fuel with
  | zero => intro lo hi mid h; exact absurd h (by simp [bisectAux])
  | succ f ih =>
    intro lo hi mid h
    by_cases hlh : lo < hi
    · rw [bisectAux, if_pos hlh] at h
      by_cases hA : bnd.getD ((hi + lo) / 2) 0 < x ∧ x ≤ bnd.getD ((hi + lo) / 2 + 1) 0
      · rw [if_pos hA] at h
        cases h
        exact hA
      · rw [if_neg hA] at h
        by_cases hB : x ≤ bnd.getD ((hi + lo) / 2) 0
        · rw [if_pos hB] at h
          exact ih _ _ _ h
        · rw [if_neg hB] at h
          exact ih _ _ _ h
    · rw [bisectAux, if_neg hlh] at h
      cases h

theorem bisect_sound (bnd : List Nat) (x lo hi mid : Nat)
    (h : bisect bnd x lo hi = some mid) :
    bnd.getD mid 0 < x ∧ x ≤ bnd.getD (mid + 1) 0 :=
  bisectAux_sound bnd x (hi - lo) lo hi mid h

theorem getD_lt_of_chain (bnd : List Nat)
    (hmono : List.Chain' (fun a b => a < b) bnd) :
    ∀ i j, i < j → j < bnd.length → bnd.getD i 0 < bnd.getD j 0 := by
  intro i j hij hj
  have hp : List.Pairwise (fun a b => a < b) bnd := List.chain'_iff_pairwise.mp hmono
  have hi : i < bnd.length := by omega
  rw [List.getD_eq_getElem _ _ hi, List.getD_eq_getElem _ _ hj]
  exact List.pairwise_iff_getElem.mp hp i j hi hj hij

theorem getD_le_of_chain (bnd : List Nat)
    (hmono : List.Chain' (fun a b => a < b) bnd) :
    ∀ i j, i ≤ j → j < bnd.length → bnd.getD i 0 ≤ bnd.getD j 0 := by
  intro i j hij hj
  rcases Nat.eq_or_lt_of_le hij with h | h
  · rw [h]
  · exact Nat.le_of_lt (getD_lt_of_chain bnd hmono i j h hj)

theorem bisectAux_complete (bnd : List Nat) (x : Nat)
    (hmono : List.Chain' (fun a b => a < b) bnd) :
    ∀ fuel lo hi, hi - lo ≤ fuel → hi ≤ bnd.length - 1 →
      ∀ i, lo ≤ i → i < hi → bnd.getD i 0 < x → x ≤ bnd.getD (i + 1) 0 →
        bisectAux bnd x fuel lo hi = some i := by
  intro fuel
  induction fuel with
  | zero => intro lo hi h1 h2 i h3 h4 h5 h6; omega
  | succ f ih =>
    intro lo hi h1 h2 i h3 h4 h5 h6
    have hlh : lo < hi := by omega
    have hlen : 2 ≤ bnd.length := by omega
    have hmid1 : lo ≤ (hi + lo) / 2 := by omega
    have hmid2 : (hi + lo) / 2 < hi := by omega
    have hmidlen : (hi + lo) / 2 + 1 < bnd.length := by omega
    rw [bisectAux, if_pos hlh]
    by_cases hA : bnd.getD ((hi + lo) / 2) 0 < x ∧ x ≤ bnd.getD ((hi + lo) / 2 + 1) 0
    · rw [if_pos hA]
      rcases Nat.lt_trichotomy i ((hi + lo) / 2) with hlt | heq | hgt
      · have : bnd.getD (i + 1) 0 ≤ bnd.getD ((hi + lo) / 2) 0 :=
          getD_le_of_chain bnd hmono (i + 1) ((hi + lo) / 2) (by omega) (by omega)
        omega
      · rw [heq]
      · have : bnd.getD ((hi + lo) / 2 + 1) 0 ≤ bnd.getD i 0 :=
          getD_le_of_chain bnd hmono ((hi + lo) / 2 + 1) i (by omega) (by omega)
        omega
    · rw [if_neg hA]
      by_cases hB : x ≤ bnd.getD ((hi + lo) / 2) 0
      · rw [if_pos hB]
        have hi2 : i < (hi + lo) / 2 := by
          by_contra hcon
          have : bnd.getD ((hi + lo) / 2) 0 ≤ bnd.getD i 0 :=
            getD_le_of_chain bnd hmono ((hi + lo) / 2) i (by omega) (by omega)
          omega
        exact ih lo ((hi + lo) / 2) (by omega) (by omega) i h3 hi2 h5 h6
      · rw [if_neg hB]
        have hBlt : bnd.getD ((hi + lo) / 2) 0 < x := by omega
        have hA2 : bnd.getD ((hi + lo) / 2 + 1) 0 < x := by
          rcases Nat.lt_or_ge (bnd.getD ((hi + lo) / 2 + 1) 0) x with h | h
          · exact h
          · exact absurd ⟨hBlt, h⟩ hA
        have hi3 : (hi + lo) / 2 + 1 ≤ i := by
          by_contra hcon
          have : bnd.getD (i + 1) 0 ≤ bnd.getD ((hi + lo) / 2 + 1) 0 :=
            getD_le_of_chain bnd hmono (i + 1) ((hi + lo) / 2 + 1) (by omega) (by omega)
          omega
        exact ih ((hi + lo) / 2 + 1) hi (by omega) h2 i hi3 h4 h5 h6

theorem bisect_complete (bnd : List Nat) (x : Nat)
    (hmono : List.Chain' (fun a b => a < b) bnd) (i : Nat)
    (h1 : i < bnd.length - 1) (h2 : bnd.getD i 0 < x) (h3 : x ≤ bnd.getD (i + 1) 0) :
    bisect bnd x 0 (bnd.length - 1) = some i :=
  bisectAux_complete bnd x hmono (bnd.length - 1 - 0) 0 (bnd.length - 1)
    (Nat.le_refl _) (Nat.le_refl _) i (Nat.zero_le i) h1 h2 h3

/-! ### Membership of the classification loop -/

theorem getD_set_self (l : List (List Nat)) (i : Nat) (a : List Nat)
    (h : i < l.length) : (l.set i a).getD i [] = a := by
  have h2 : i < (l.set i a).length := by rw [List.length_set]; exact h
  rw [List.getD_eq_getElem _ _ h2, List.getElem_set_self]

theorem getD_set_ne (l : List (List Nat)) (i j : Nat) (a : List Nat)
    (hne : i ≠ j) : (l.set i a).getD j [] = l.getD j [] := by
  by_cases hj : j < l.length
  · have h2 : j < (l.set i a).length := by rw [List.length_set]; exact hj
    rw [List.getD_eq_getElem _ _ h2, List.getD_eq_getElem _ _ hj,
      List.getElem_set_ne hne]
  · have h3 : l.length ≤ j := by omega
    rw [List.getD_eq_default _ _ (by rw [List.length_set]; exact h3),
      List.getD_eq_default _ _ h3]

theorem getD_replicate_nil (n i : Nat) :
    (List.replicate n ([] : List Nat)).getD i [] = [] := by
  by_cases hi : i < n
  · rw [List.getD_eq_getElem _ _ (by rw [List.length_replicate]; exact hi)]
    exact List.getElem_replicate _ _
  · exact List.getD_eq_default _ _ (by rw [List.length_replicate]; omega)

theorem assignAux_mem (bnd : List Nat) :
    ∀ (rest : List Nat) (bks : List (List Nat)) (i0 k j : Nat), k < bks.length →
      (j ∈ (assignAux bnd bks i0 rest).getD k [] ↔
        j ∈ bks.getD k [] ∨ ∃ m, m < rest.length ∧ j = i0 + m ∧
          bisect bnd (rest.getD m 0) 0 (bnd.length - 1) = some k) := by
  intro rest
  induction rest with
  | nil =>
    intro bks i0 k j hk
    constructor
    · intro h
      exact Or.inl h
    · intro h
      rcases h with h | ⟨m, hm, _, _⟩
      · exact h
      · exact absurd hm (by simp)
  | cons a t ih =>
    intro bks i0 k j hk
    rw [assignAux]
    cases hb : bisect bnd a 0 (bnd.length - 1) with
    | none =>
      rw [ih bks (i0 + 1) k j hk]
      constructor
      · intro h
        rcases h with h | ⟨m, hm, he, hbi⟩
        · exact Or.inl h
        · exact Or.inr ⟨m + 1, by simpa using hm, by omega, by simpa using hbi⟩
      · intro h
        rcases h with h | ⟨m, hm, he, hbi⟩
        · exact Or.inl h
        · cases m with
          | zero =>
            rw [List.getD_cons_zero] at hbi
            rw [hb] at hbi
            cases hbi
          | succ m2 =>
            rw [List.getD_cons_succ] at hbi
            exact Or.inr ⟨m2, by simp at hm; omega, by omega, hbi⟩
    | some idx =>
      rw [ih _ (i0 + 1) k j (by rw [List.length_set]; exact hk)]
      by_cases hik : idx = k
      · subst hik
        rw [getD_set_self bks idx _ hk]
        constructor
        · intro h
          rcases h with h | ⟨m, hm, he, hbi⟩
          · rcases List.mem_append.mp h with h2 | h2
            · exact Or.inl h2
            · exact Or.inr ⟨0, by simp, by
                have := List.mem_singleton.mp h2
                omega, by rw [List.getD_cons_zero]; exact hb⟩
          · exact Or.inr ⟨m + 1, by simpa using hm, by omega, by simpa using hbi⟩
        · intro h
          rcases h with h | ⟨m, hm, he, hbi⟩
          · exact Or.inl (List.mem_append.mpr (Or.inl h))
          · cases m with
            | zero =>
              refine Or.inl (List.mem_append.mpr (Or.inr ?_))
              rw [List.mem_singleton]
              omega
            | succ m2 =>
              rw [List.getD_cons_succ] at hbi
              exact Or.inr ⟨m2, by simp at hm; omega, by omega, hbi⟩
      · rw [getD_set_ne bks idx k _ hik]
        constructor
        · intro h
          rcases h with h | ⟨m, hm, he, hbi⟩
          · exact Or.inl h
          · exact Or.inr ⟨m + 1, by simpa using hm, by omega, by simpa using hbi⟩
        · intro h
          rcases h with h | ⟨m, hm, he, hbi⟩
          · exact Or.inl h
          · cases m with
            | zero =>
              rw [List.getD_cons_zero] at hbi
              rw [hb] at hbi
              cases hbi
              exact absurd rfl hik
            | succ m2 =>
              rw [List.getD_cons_succ] at hbi
              exact Or.inr ⟨m2, by simp at hm; omega, by omega, hbi⟩

theorem assignBuckets_mem (lengths bnd : List Nat) (k j : Nat)
    (hk : k < bnd.length - 1) :
    j ∈ (assignBuckets lengths bnd).getD k [] ↔
      j < lengths.length ∧ bisect bnd (lengths.getD j 0) 0 (bnd.length - 1) = some k := by
  rw [assignBuckets, assignAux_mem bnd lengths _ 0 k j
    (by rw [List.length_replicate]; exact hk)]
  rw [getD_replicate_nil]
  constructor
  · intro h
    rcases h with h | ⟨m, hm, he, hbi⟩
    · cases h
    · constructor
      · omega
      · have : j = m := by omega
        rw [this]
        exact hbi
  · intro ⟨h1, h2⟩
    exact Or.inr ⟨j, h1, by omega, h2⟩


/-! ### Element provenance through the batching pipeline -/

theorem zip3_nil_right (as2 : List (List Nat)) (is2 : List (List Nat)) :
    zip3 as2 is2 [] = [] := by
  cases as2 with
  | nil => rfl
  | cons a at2 =>
    cases is2 with
    | nil => rfl
    | cons i it2 => rfl

theorem zip3_nil_mid (as2 : List (List Nat)) (ns2 : List Nat) :
    zip3 as2 [] ns2 = [] := by
  cases as2 with
  | nil => rfl
  | cons a at2 => rfl

theorem zip3_cons (a : List Nat) (at2 : List (List Nat)) (i : List Nat)
    (it2 : List (List Nat)) (n : Nat) (nt2 : List Nat) :
    zip3 (a :: at2) (i :: it2) (n :: nt2) = (a, i, n) :: zip3 at2 it2 nt2 := rfl

theorem strideEvery_subset {α : Type} :
    ∀ (l : List α) (r n : Nat) (x : α), x ∈ strideEvery l r n → x ∈ l := by
  intro l
  induction l with
  | nil => intro r n x h; cases h
  | cons a t ih =>
    intro r n x h
    cases r with
    | zero =>
      rw [strideEvery] at h
      rcases List.mem_cons.mp h with h2 | h2
      · rw [h2]; exact List.mem_cons_self a t
      · exact List.mem_cons_of_mem a (ih _ _ _ h2)
    | succ r2 =>
      rw [strideEvery] at h
      exact List.mem_cons_of_mem a (ih _ _ _ h)

theorem padIds_subset (ids : List Nat) (lenB nsb : Nat) (x : Nat)
    (h : x ∈ padIds ids lenB nsb) : x ∈ ids := by
  rw [padIds] at h
  rcases List.mem_append.mp h with h2 | h2
  · rcases List.mem_append.mp h2 with h3 | h3
    · exact h3
    · rcases List.mem_flatten.mp h3 with ⟨l, hl, hxl⟩
      have := (List.mem_replicate.mp hl).2
      rw [this] at hxl
      exact hxl
  · exact (List.take_sublist _ _).mem h2

theorem chunkList_subset {α : Type} (l : List α) (k : Nat) (ch : List α) (x : α)
    (hch : ch ∈ chunkList l k) (hx : x ∈ ch) : x ∈ l := by
  rw [chunkList] at hch
  rcases List.mem_map.mp hch with ⟨m, _, rfl⟩
  exact (List.drop_sublist _ _).mem ((List.take_sublist _ _).mem hx)

theorem getD_mem_of_lt {α : Type} (l : List α) (i : Nat) (d : α) (h : i < l.length) :
    l.getD i d ∈ l := by
  rw [List.getD_eq_getElem _ _ h]
  exact List.getElem_mem h

theorem batchesOfBuckets_members (bs nr rank : Nat) :
    ∀ (trip : List (List Nat × List Nat × Nat)),
      (∀ t ∈ trip, ∀ idx ∈ t.2.1, idx < t.1.length) →
      ∀ bt ∈ batchesOfBuckets bs nr rank trip, ∀ x ∈ bt, ∃ t ∈ trip, x ∈ t.1 := by
  intro trip
  induction trip with
  | nil => intro _ bt h; cases h
  | cons hd tl ih =>
    intro hvalid bt hbt x hx
    obtain ⟨bucket, ids, nsb⟩ := hd
    rw [batchesOfBuckets] at hbt
    by_cases hemp : bucket.isEmpty
    · rw [if_pos hemp] at hbt
      obtain ⟨t, ht, hxt⟩ := ih (fun t ht => hvalid t (List.mem_cons_of_mem _ ht)) bt hbt x hx
      exact ⟨t, List.mem_cons_of_mem _ ht, hxt⟩
    · rw [if_neg hemp] at hbt
      rcases List.mem_append.mp hbt with h2 | h2
      · rw [bucketBatches] at h2
        rcases List.mem_map.mp h2 with ⟨ch, hch, rfl⟩
        rcases List.mem_map.mp hx with ⟨idx, hidx, rfl⟩
        have hidx2 : idx ∈ ids :=
          padIds_subset ids bucket.length nsb idx
            (strideEvery_subset _ rank nr idx (chunkList_subset _ bs ch idx hch hidx))
        have hlt : idx < bucket.length :=
          hvalid (bucket, ids, nsb) (List.mem_cons_self _ _) idx hidx2
        exact ⟨(bucket, ids, nsb), List.mem_cons_self _ _, getD_mem_of_lt bucket idx 0 hlt⟩
      · obtain ⟨t, ht, hxt⟩ := ih (fun t ht => hvalid t (List.mem_cons_of_mem _ ht)) bt h2 x hx
        exact ⟨t, List.mem_cons_of_mem _ ht, hxt⟩

theorem zip3_mem_left (t : List Nat × List Nat × Nat) :
    ∀ (as2 : List (List Nat)) (is2 : List (List Nat)) (ns2 : List Nat),
      t ∈ zip3 as2 is2 ns2 → t.1 ∈ as2 := by
  intro as2
  induction as2 with
  | nil => intro is2 ns2 h; cases h
  | cons a at2 ih =>
    intro is2 ns2 h
    cases is2 with
    | nil => rw [zip3_nil_mid] at h; cases h
    | cons i it2 =>
      cases ns2 with
      | nil => rw [zip3_nil_right] at h; cases h
      | cons n nt2 =>
        rw [zip3_cons] at h
        rcases List.mem_cons.mp h with h2 | h2
        · rw [h2]; exact List.mem_cons_self _ _
        · exact List.mem_cons_of_mem a (ih it2 nt2 h2)

theorem zip3_perm_shuffle (rp : RngModel) (hrp : IsPermGen rp) :
    ∀ (bks : List (List Nat)) (nsbs : List Nat) (st : Nat),
      ∀ t ∈ zip3 bks (permEach rp st bks).1 nsbs, (t.2.1).Perm (List.range t.1.length) := by
  intro bks
  induction bks with
  | nil => intro nsbs st t h; cases h
  | cons b bt ih =>
    intro nsbs st t h
    rw [permEach] at h
    cases nsbs with
    | nil => rw [zip3_nil_right] at h; cases h
    | cons n nt =>
      rw [zip3_cons] at h
      rcases List.mem_cons.mp h with h2 | h2
      · rw [h2]; exact hrp st b.length
      · exact ih nt (rp st b.length).2 t h2

theorem zip3_perm_id :
    ∀ (bks : List (List Nat)) (nsbs : List Nat),
      ∀ t ∈ zip3 bks (bks.map (fun b => List.range b.length)) nsbs,
        (t.2.1).Perm (List.range t.1.length) := by
  intro bks
  induction bks with
  | nil => intro nsbs t h; cases h
  | cons b bt ih =>
    intro nsbs t h
    rw [List.map] at h
    cases nsbs with
    | nil => rw [zip3_nil_right] at h; cases h
    | cons n nt =>
      rw [zip3_cons] at h
      rcases List.mem_cons.mp h with h2 | h2
      · rw [h2]
      · exact ih nt t h2

theorem epochState_perm (rp : RngModel) (hrp : IsPermGen rp) (ep : Nat) (shuffle : Bool)
    (bks : List (List Nat)) (nsbs : List Nat) :
    ∀ t ∈ zip3 bks (epochState rp ep shuffle bks).1 nsbs,
      (t.2.1).Perm (List.range t.1.length) := by
  cases shuffle with
  | true =>
    intro t h
    rw [epochState, if_pos rfl] at h
    exact zip3_perm_shuffle rp hrp bks nsbs ep t h
  | false =>
    intro t h
    rw [epochState] at h
    simp only [Bool.false_eq_true, if_false] at h
    exact zip3_perm_id bks nsbs t h

/-- Unfolding of one __iter__ call on a freshly constructed sampler whose
epoch has been set. -/
theorem iterStep_mk (rp : RngModel) (lengths bnd : List Nat)
    (bs nr rank ep : Nat) (shuffle : Bool) :
    (iterStep rp (setEpoch (mkSampler lengths bs bnd nr rank shuffle) ep)).1
      = (if shuffle then
          (rp (epochState rp ep shuffle (createBuckets lengths bnd nr bs).1).2
            (batchesOfBuckets bs nr rank (zip3 (createBuckets lengths bnd nr bs).1
              (epochState rp ep shuffle (createBuckets lengths bnd nr bs).1).1
              (createBuckets lengths bnd nr bs).2.1)).length).1.map
            (fun i => (batchesOfBuckets bs nr rank (zip3 (createBuckets lengths bnd nr bs).1
              (epochState rp ep shuffle (createBuckets lengths bnd nr bs).1).1
              (createBuckets lengths bnd nr bs).2.1)).getD i [])
        else batchesOfBuckets bs nr rank (zip3 (createBuckets lengths bnd nr bs).1
          (epochState rp ep shuffle (createBuckets lengths bnd nr bs).1).1
          (createBuckets lengths bnd nr bs).2.1)) := rfl

/-- Any batch of the emitted epoch is one of the pre-shuffle batches,
provided it is inhabited. -/
theorem mem_batches_of_mem_final (rp : RngModel) (lengths bnd : List Nat)
    (bs nr rank ep : Nat) (shuffle : Bool) (bt : List Nat) (j : Nat)
    (hbt : bt ∈ (iterStep rp (setEpoch (mkSampler lengths bs bnd nr rank shuffle) ep)).1)
    (hj : j ∈ bt) :
    bt ∈ batchesOfBuckets bs nr rank (zip3 (createBuckets lengths bnd nr bs).1
      (epochState rp ep shuffle (createBuckets lengths bnd nr bs).1).1
      (createBuckets lengths bnd nr bs).2.1) := by
  rw [iterStep_mk] at hbt
  cases shuffle with
  | false => simpa using hbt
  | true =>
    rw [if_pos rfl] at hbt
    rcases List.mem_map.mp hbt with ⟨i, _, rfl⟩
    by_cases hil : i < (batchesOfBuckets bs nr rank (zip3 (createBuckets lengths bnd nr bs).1
        (epochState rp ep true (createBuckets lengths bnd nr bs).1).1
        (createBuckets lengths bnd nr bs).2.1)).length
    · exact getD_mem_of_lt _ i [] hil
    · rw [List.getD_eq_default _ _ (by omega)] at hj
      cases hj

/-- C6: membership is decided by the half-open-left closed-right rule
boundaries[i] < length <= boundaries[i+1]; a length equal to the first
boundary lands in no bucket, a length equal to the last boundary lands in
the last bucket, a length above the last boundary lands in no bucket, and
a discarded sample never appears in any emitted batch. -/
theorem c6_discard_rule (bnd : List Nat)
    (hmono : List.Chain' (fun a b => a < b) bnd) :
    (∀ (lengths : List Nat) (i j : Nat), i < bnd.length - 1 →
        (j ∈ (assignBuckets lengths bnd).getD i [] ↔
          j < lengths.length ∧ bnd.getD i 0 < lengths.getD j 0
            ∧ lengths.getD j 0 ≤ bnd.getD (i + 1) 0))
      ∧ (∀ x, x ≤ bnd.getD 0 0 → bisect bnd x 0 (bnd.length - 1) = none)
      ∧ (2 ≤ bnd.length →
          bisect bnd (bnd.getD (bnd.length - 1) 0) 0 (bnd.length - 1)
            = some (bnd.length - 2))
      ∧ (∀ x, bnd.getD (bnd.length - 1) 0 < x → bisect bnd x 0 (bnd.length - 1) = none)
      ∧ (∀ (rp : RngModel) (lengths : List Nat) (bs nr rank ep : Nat) (shuffle : Bool)
          (bt : List Nat) (j : Nat), IsPermGen rp →
          bt ∈ (iterStep rp (setEpoch (mkSampler lengths bs bnd nr rank shuffle) ep)).1 →
          j ∈ bt →
          bisect bnd (lengths.getD j 0) 0 (bnd.length - 1) ≠ none) := by
  refine ⟨?_, ?_, ?_, ?_, ?_⟩
  · intro lengths i j hi
    constructor
    · intro h
      have h2 := (assignBuckets_mem lengths bnd i j hi).mp h
      exact ⟨h2.1, (bisect_sound bnd _ 0 _ i h2.2).1, (bisect_sound bnd _ 0 _ i h2.2).2⟩
    · intro h
      exact (assignBuckets_mem lengths bnd i j hi).mpr
        ⟨h.1, bisect_complete bnd _ hmono i hi h.2.1 h.2.2⟩
  · intro x hx
    rcases bisectAux_range bnd x (bnd.length - 1) 0 (bnd.length - 1) with h | ⟨m, hm, _, hm2⟩
    · exact h
    · have hs := bisectAux_sound bnd x (bnd.length - 1) 0 (bnd.length - 1) m hm
      have hle : bnd.getD 0 0 ≤ bnd.getD m 0 :=
        getD_le_of_chain bnd hmono 0 m (Nat.zero_le m) (by omega)
      omega
  · intro h2len
    have h1 : bnd.length - 2 < bnd.length - 1 := by omega
    have h2 : bnd.getD (bnd.length - 2) 0 < bnd.getD (bnd.length - 1) 0 :=
      getD_lt_of_chain bnd hmono (bnd.length - 2) (bnd.length - 1) (by omega) (by omega)
    have h3 : bnd.length - 2 + 1 = bnd.length - 1 := by omega
    apply bisect_complete bnd _ hmono (bnd.length - 2) h1 h2
    rw [h3]
  · intro x hx
    rcases bisectAux_range bnd x (bnd.length - 1) 0 (bnd.length - 1) with h | ⟨m, hm, _, hm2⟩
    · exact h
    · have hs := bisectAux_sound bnd x (bnd.length - 1) 0 (bnd.length - 1) m hm
      have hle : bnd.getD (m + 1) 0 ≤ bnd.getD (bnd.length - 1) 0 :=
        getD_le_of_chain bnd hmono (m + 1) (bnd.length - 1) (by omega) (by omega)
      omega
  · intro rp lengths bs nr rank ep shuffle bt j hrp hbt hj
    have hbts := mem_batches_of_mem_final rp lengths bnd bs nr rank ep shuffle bt j hbt hj
    have hvalid : ∀ t ∈ zip3 (createBuckets lengths bnd nr bs).1
        (epochState rp ep shuffle (createBuckets lengths bnd nr bs).1).1
        (createBuckets lengths bnd nr bs).2.1, ∀ idx ∈ t.2.1, idx < t.1.length := by
      intro t ht idx hidx
      exact List.mem_range.mp
        (((epochState_perm rp hrp ep shuffle _ _ t ht).mem_iff).mp hidx)
    obtain ⟨t, ht, hjt⟩ := batchesOfBuckets_members bs nr rank _ hvalid bt hbts j hj
    have ht1 : t.1 ∈ (createBuckets lengths bnd nr bs).1 := zip3_mem_left t _ _ _ ht
    have hsub : ((createBuckets lengths bnd nr bs).1).Sublist (assignBuckets lengths bnd) :=
      pruneBuckets_sublist ((assignBuckets lengths bnd).length - 1) (assignBuckets lengths bnd) bnd
    have ht2 : t.1 ∈ assignBuckets lengths bnd := hsub.mem ht1
    rcases List.mem_iff_getElem.mp ht2 with ⟨k, hk, hkeq⟩
    have hklen : k < bnd.length - 1 := by
      rw [assignBuckets_length] at hk
      exact hk
    have hj2 : j ∈ (assignBuckets lengths bnd).getD k [] := by
      rw [List.getD_eq_getElem _ _ hk, hkeq]
      exact hjt
    have hres := (assignBuckets_mem lengths bnd k j hklen).mp hj2
    intro hcon
    exact Option.noConfusion (hres.2.symm.trans hcon)

theorem c6_discard_rule_witness :
    (0 ∈ (assignBuckets [2] [1, 3]).getD 0 [])
      ∧ bisect [1, 3] 1 0 1 = none
      ∧ bisect [1, 3] 3 0 1 = some 0
      ∧ bisect [1, 3] 4 0 1 = none :=
  ⟨((c6_discard_rule [1, 3] (by simp)).1 [2] 0 0 (by decide)).mpr
      ⟨by decide, by decide, by decide⟩,
   (c6_discard_rule [1, 3] (by simp)).2.1 1 (by decide),
   (c6_discard_rule [1, 3] (by simp)).2.2.1 (by decide),
   (c6_discard_rule [1, 3] (by simp)).2.2.2.1 4 (by decide)⟩

/-! ### Content of the padded tile and the strided shard -/

theorem strideEvery_getD (n : Nat) (hn : 0 < n) :
    ∀ (l : List Nat) (r j : Nat),
      (strideEvery l r n).getD j 0 = l.getD (r + j * n) 0 := by
  intro l
  induction l with
  | nil => intro r j; rfl
  | cons a t ih =>
    intro r j
    cases r with
    | zero =>
      rw [strideEvery]
      cases j with
      | zero => simp
      | succ j2 =>
        rw [List.getD_cons_succ]
        rw [ih (n - 1) j2]
        have e : 0 + (j2 + 1) * n = (j2 * n + (n - 1)) + 1 := by
          rw [Nat.succ_mul]
          omega
        rw [e, List.getD_cons_succ]
        have e2 : n - 1 + j2 * n = j2 * n + (n - 1) := by omega
        rw [e2]
    | succ r2 =>
      rw [strideEvery]
      rw [ih r2 j]
      have e : r2 + 1 + j * n = (r2 + j * n) + 1 := by omega
      rw [e, List.getD_cons_succ]

theorem strideEvery_length (n : Nat) (hn : 0 < n) :
    ∀ (l : List Nat) (r : Nat),
      (strideEvery l r n).length = (l.length - r + n - 1) / n := by
  intro l
  induction l with
  | nil =>
    intro r
    rw [List.length_nil]
    have e : 0 - r + n - 1 = n - 1 := by omega
    rw [e, Nat.div_eq_of_lt (by omega)]
    rfl
  | cons a t ih =>
    intro r
    cases r with
    | zero =>
      rw [strideEvery]
      have hl : (a :: strideEvery t (n - 1) n).length
          = (strideEvery t (n - 1) n).length + 1 := rfl
      rw [hl, ih (n - 1)]
      have e0 : (a :: t).length - 0 + n - 1 = t.length + n := by
        rw [List.length_cons]
        omega
      rw [e0]
      rw [Nat.add_div_right _ hn]
      by_cases htn : n - 1 ≤ t.length
      · have e1 : t.length - (n - 1) + n - 1 = t.length := by omega
        rw [e1]
      · have e1 : t.length - (n - 1) + n - 1 = n - 1 := by omega
        rw [e1, Nat.div_eq_of_lt (by omega), Nat.div_eq_of_lt (by omega)]
    | succ r2 =>
      rw [strideEvery]
      rw [ih r2]
      have e : (a :: t).length - (r2 + 1) + n - 1 = t.length - r2 + n - 1 := by
        rw [List.length_cons]
        omega
      rw [e]

theorem flatten_replicate_length (ids : List Nat) :
    ∀ c : Nat, ((List.replicate c ids).flatten).length = c * ids.length := by
  intro c
  induction c with
  | zero => simp
  | succ c2 ih =>
    rw [List.replicate_succ, List.flatten_cons, List.length_append, ih, Nat.succ_mul]
    omega

theorem flatten_replicate_getD (ids : List Nat) :
    ∀ (c q : Nat), q < c * ids.length →
      ((List.replicate c ids).flatten).getD q 0 = ids.getD (q % ids.length) 0 := by
  intro c
  induction c with
  | zero => intro q hq; omega
  | succ c2 ih =>
    intro q hq
    rw [List.replicate_succ, List.flatten_cons]
    by_cases h1 : q < ids.length
    · rw [List.getD_append _ _ _ _ h1, Nat.mod_eq_of_lt h1]
    · obtain ⟨q2, rfl⟩ : ∃ q2, q = q2 + ids.length := ⟨q - ids.length, by omega⟩
      rw [List.getD_append_right _ _ _ _ (by omega), Nat.add_sub_cancel, Nat.add_mod_right]
      apply ih
      rw [Nat.succ_mul] at hq
      omega

theorem padIds_length (ids : List Nat) (nsb : Nat) (h0 : 0 < ids.length)
    (hle : ids.length ≤ nsb) :
    (padIds ids ids.length nsb).length = nsb := by
  rw [padIds, List.length_append, List.length_append, flatten_replicate_length,
    List.length_take]
  have hmod : (nsb - ids.length) % ids.length < ids.length := Nat.mod_lt _ h0
  have hmin : (nsb - ids.length) % ids.length ⊓ ids.length
      = (nsb - ids.length) % ids.length := by
    omega
  rw [hmin]
  have hdm := Nat.div_add_mod (nsb - ids.length) ids.length
  have hcomm : (nsb - ids.length) / ids.length * ids.length
      = ids.length * ((nsb - ids.length) / ids.length) := Nat.mul_comm _ _
  omega

theorem padIds_getD (ids : List Nat) (nsb : Nat) (h0 : 0 < ids.length)
    (hle : ids.length ≤ nsb) :
    ∀ q, q < nsb →
      (padIds ids ids.length nsb).getD q 0 = ids.getD (q % ids.length) 0 := by
  intro q hq
  rw [padIds]
  obtain ⟨K, hK⟩ : ∃ K, (nsb - ids.length) / ids.length * ids.length = K := ⟨_, rfl⟩
  have hflat : ((List.replicate ((nsb - ids.length) / ids.length) ids).flatten).length
      = K := by
    rw [flatten_replicate_length, hK]
  have hdm := Nat.div_add_mod (nsb - ids.length) ids.length
  have hKmod : K + (nsb - ids.length) % ids.length = nsb - ids.length := by
    rw [← hK, Nat.mul_comm]
    exact hdm
  have hmodlt : (nsb - ids.length) % ids.length < ids.length := Nat.mod_lt _ h0
  by_cases h1 : q < ids.length
  · rw [List.getD_append _ _ _ _ (by rw [List.length_append, hflat]; omega),
      List.getD_append _ _ _ _ h1, Nat.mod_eq_of_lt h1]
  · by_cases h2 : q < ids.length + K
    · rw [List.getD_append _ _ _ _ (by rw [List.length_append, hflat]; omega)]
      obtain ⟨q2, rfl⟩ : ∃ q2, q = q2 + ids.length := ⟨q - ids.length, by omega⟩
      rw [List.getD_append_right _ _ _ _ (by omega), Nat.add_sub_cancel, Nat.add_mod_right]
      exact flatten_replicate_getD ids _ q2 (by rw [hK]; omega)
    · rw [List.getD_append_right _ _ _ _ (by rw [List.length_append, hflat]; omega)]
      rw [List.length_append, hflat]
      obtain ⟨s, rfl⟩ : ∃ s, q = ids.length + K + s := ⟨q - (ids.length + K), by omega⟩
      have he : ids.length + K + s - (ids.length + K) = s := by omega
      rw [he]
      have hs : s < (nsb - ids.length) % ids.length := by omega
      have hsl : s < ids.length := by omega
      have htake : (ids.take ((nsb - ids.length) % ids.length)).getD s 0
          = ids.getD s 0 := by
        have hlt : s < (ids.take ((nsb - ids.length) % ids.length)).length := by
          rw [List.length_take]
          omega
        rw [List.getD_eq_getElem _ _ hlt, List.getD_eq_getElem _ _ hsl, List.getElem_take]
      rw [htake]
      have e : ids.length + K + s = s + (1 + (nsb - ids.length) / ids.length) * ids.length := by
        rw [Nat.add_mul, Nat.one_mul, hK]
        omega
      rw [e, Nat.add_mul_mod_self_right, Nat.mod_eq_of_lt hsl]

theorem stride_len_div (nsb nr r : Nat) (hnr : 0 < nr) (hr : r < nr)
    (hdvd : nr ∣ nsb) : (nsb - r + nr - 1) / nr = nsb / nr := by
  obtain ⟨m, rfl⟩ := hdvd
  cases m with
  | zero =>
    have e : nr * 0 - r + nr - 1 = nr - 1 := by omega
    rw [e, Nat.div_eq_of_lt (by omega), Nat.mul_zero, Nat.zero_div]
  | succ m2 =>
    have hge : nr ≤ nr * (m2 + 1) := Nat.le_mul_of_pos_right nr (by omega)
    have e : nr * (m2 + 1) - r + nr - 1 = (nr - 1 - r) + nr * (m2 + 1) := by omega
    rw [e, Nat.add_mul_div_left _ _ hnr, Nat.div_eq_of_lt (by omega),
      Nat.mul_div_cancel_left _ hnr]
    omega

theorem padCount_dvd (t L : Nat) (ht : 0 < t) : t ∣ padCount t L :=
  Nat.dvd_of_mod_eq_zero (padCount_mod t L ht)

theorem padCount_le (t L : Nat) : L ≤ padCount t L := Nat.le_add_right _ _

/-- C3: for a non-empty bucket with permuted position list p of length L,
the padded list tiles p from its start to exactly padCount entries
(entry q is p[q mod L], with no fresh randomness), and rank r reads the
padded positions r, r + nr, r + 2nr, ..., a shard of exactly
padCount / nr entries. -/
theorem c3_shard_content (p : List Nat) (bs nr r : Nat) (h0 : 0 < p.length)
    (hbs : 0 < bs) (hnr : 0 < nr) (hr : r < nr) :
    (padIds p p.length (padCount (nr * bs) p.length)).length
        = padCount (nr * bs) p.length
      ∧ (∀ q, q < padCount (nr * bs) p.length →
          (padIds p p.length (padCount (nr * bs) p.length)).getD q 0
            = p.getD (q % p.length) 0)
      ∧ (strideEvery (padIds p p.length (padCount (nr * bs) p.length)) r nr).length
          = padCount (nr * bs) p.length / nr
      ∧ (∀ j, (strideEvery (padIds p p.length (padCount (nr * bs) p.length)) r nr).getD j 0
          = (padIds p p.length (padCount (nr * bs) p.length)).getD (r + j * nr) 0) := by
  have htbs : 0 < nr * bs := Nat.mul_pos hnr hbs
  have hle : p.length ≤ padCount (nr * bs) p.length := padCount_le _ _
  have hplen : (padIds p p.length (padCount (nr * bs) p.length)).length
      = padCount (nr * bs) p.length := padIds_length p _ h0 hle
  have hdvd : nr ∣ padCount (nr * bs) p.length :=
    Dvd.dvd.trans (Dvd.intro bs rfl) (padCount_dvd _ _ htbs)
  refine ⟨hplen, padIds_getD p _ h0 hle, ?_, fun j => strideEvery_getD nr hnr _ r j⟩
  rw [strideEvery_length nr hnr, hplen, stride_len_div _ nr r hnr hr hdvd]

theorem c3_shard_content_witness :
    (padIds [0, 1] (List.length [0, 1]) (padCount (2 * 2) (List.length [0, 1]))).length
        = padCount (2 * 2) (List.length [0, 1])
      ∧ (padIds [0, 1] (List.length [0, 1]) (padCount (2 * 2) (List.length [0, 1]))).getD 3 0
          = List.getD [0, 1] (3 % List.length [0, 1]) 0
      ∧ (strideEvery (padIds [0, 1] (List.length [0, 1])
            (padCount (2 * 2) (List.length [0, 1]))) 1 2).length
          = padCount (2 * 2) (List.length [0, 1]) / 2
      ∧ (strideEvery (padIds [0, 1] (List.length [0, 1])
            (padCount (2 * 2) (List.length [0, 1]))) 1 2).getD 1 0
          = (padIds [0, 1] (List.length [0, 1])
              (padCount (2 * 2) (List.length [0, 1]))).getD (1 + 1 * 2) 0 :=
  ⟨(c3_shard_content [0, 1] 2 2 1 (by decide) (by decide) (by decide) (by decide)).1,
   (c3_shard_content [0, 1] 2 2 1 (by decide) (by decide) (by decide) (by decide)).2.1 3
     (by decide),
   (c3_shard_content [0, 1] 2 2 1 (by decide) (by decide) (by decide) (by decide)).2.2.1,
   (c3_shard_content [0, 1] 2 2 1 (by decide) (by decide) (by decide) (by decide)).2.2.2 1⟩

/-! ### Batching arithmetic -/

theorem chunkList_length {α : Type} (l : List α) (k : Nat) :
    (chunkList l k).length = l.length / k := by
  rw [chunkList, List.length_map, List.length_range]

theorem chunkList_cons {α : Type} (l : List α) (k : Nat) (hk : 0 < k)
    (hlen : k ≤ l.length) :
    chunkList l k = l.take k :: chunkList (l.drop k) k := by
  rw [chunkList, chunkList, List.length_drop]
  have h1 : l.length / k = (l.length - k) / k + 1 := by
    have e : l.length = (l.length - k) + k := by omega
    conv_lhs => rw [e]
    rw [Nat.add_div_right _ hk]
  rw [h1, List.range_succ_eq_map, List.map_cons]
  have h2 : (l.drop (0 * k)).take k = l.take k := by
    rw [Nat.zero_mul, List.drop_zero]
  rw [h2, List.map_map]
  have h3 : ((fun j => (l.drop (j * k)).take k) ∘ Nat.succ)
      = fun j => ((l.drop k).drop (j * k)).take k := by
    funext j
    show (l.drop ((j + 1) * k)).take k = ((l.drop k).drop (j * k)).take k
    rw [List.drop_drop, Nat.succ_mul, Nat.add_comm (j * k) k]
  rw [h3]

theorem chunkList_flatten {α : Type} (k : Nat) (hk : 0 < k) :
    ∀ (m : Nat) (l : List α), l.length = m → k ∣ m → (chunkList l k).flatten = l := by
  intro m
  induction m using Nat.strong_induction_on with
  | _ m ih =>
    intro l hlen hdvd
    by_cases h0 : m = 0
    · have : l = [] := List.length_eq_zero.mp (by omega)
      subst this
      simp [chunkList]
    · have hkm : k ≤ m := Nat.le_of_dvd (by omega) hdvd
      rw [chunkList_cons l k hk (by omega), List.flatten_cons]
      have hdl : (l.drop k).length = m - k := by
        rw [List.length_drop]
        omega
      rw [ih (m - k) (by omega) (l.drop k) hdl (Nat.dvd_sub hkm hdvd (dvd_refl k))]
      exact List.take_append_drop k l

theorem chunkList_mem_length {α : Type} (l : List α) (k : Nat) (hk : 0 < k) :
    ∀ ch ∈ chunkList l k, ch.length = k := by
  intro ch hch
  rw [chunkList] at hch
  rcases List.mem_map.mp hch with ⟨j, hj, rfl⟩
  have h1 : j + 1 ≤ l.length / k := List.mem_range.mp hj
  have h2 : (j + 1) * k ≤ (l.length / k) * k := Nat.mul_le_mul_right k h1
  have h3 : (l.length / k) * k ≤ l.length := Nat.div_mul_le_self _ _
  have h4 : j * k + k ≤ l.length := by
    rw [Nat.succ_mul] at h2
    omega
  rw [List.length_take, List.length_drop]
  omega

theorem flatten_length_const (c : Nat) :
    ∀ (L : List (List Nat)), (∀ b ∈ L, b.length = c) →
      (L.flatten).length = L.length * c := by
  intro L
  induction L with
  | nil => intro _; simp
  | cons b t ih =>
    intro h
    rw [List.flatten_cons, List.length_append, ih (fun x hx => h x (List.mem_cons_of_mem _ hx)),
      h b (List.mem_cons_self _ _), List.length_cons, Nat.succ_mul]
    omega

theorem sum_div_of_dvd (d : Nat) (hd : 0 < d) :
    ∀ (ns : List Nat), (∀ x ∈ ns, d ∣ x) →
      (ns.map (fun x => x / d)).sum = ns.sum / d := by
  intro ns
  induction ns with
  | nil => simp
  | cons a t ih =>
    intro h
    obtain ⟨w, rfl⟩ := h a (List.mem_cons_self _ _)
    rw [List.map_cons, List.sum_cons, List.sum_cons,
      ih (fun x hx => h x (List.mem_cons_of_mem _ hx)),
      Nat.mul_add_div hd, Nat.mul_div_cancel_left _ hd]

theorem getD_map_range (l : List (List Nat)) :
    (List.range l.length).map (fun i => l.getD i []) = l := by
  induction l with
  | nil => rfl
  | cons a t ih =>
    rw [List.length_cons, List.range_succ_eq_map, List.map_cons, List.map_map]
    have h1 : ((fun i => (a :: t).getD i []) ∘ Nat.succ) = fun i => t.getD i [] := by
      funext i
      exact List.getD_cons_succ
    rw [h1]
    have h2 : (a :: t).getD 0 [] = a := rfl
    rw [h2]
    conv_rhs => rw [← ih]

theorem map_getD_perm (l : List (List Nat)) (ids : List Nat)
    (h : ids.Perm (List.range l.length)) :
    (ids.map (fun i => l.getD i [])).Perm l := by
  have h2 := h.map (fun i => l.getD i [])
  rw [getD_map_range] at h2
  exact h2

/-! ### Shape of the per-epoch triple list -/

theorem permEach_length (rp : RngModel) :
    ∀ (st : Nat) (bks : List (List Nat)), ((permEach rp st bks).1).length = bks.length := by
  intro st bks
  induction bks generalizing st with
  | nil => rfl
  | cons b bt ih =>
    rw [permEach, List.length_cons, List.length_cons, ih]

theorem epochState_length (rp : RngModel) (ep : Nat) (shuffle : Bool)
    (bks : List (List Nat)) :
    ((epochState rp ep shuffle bks).1).length = bks.length := by
  cases shuffle with
  | true => rw [epochState, if_pos rfl]; exact permEach_length rp ep bks
  | false =>
    rw [epochState]
    simp only [Bool.false_eq_true, if_false]
    exact List.length_map _ _

theorem zip3_nsb (f : List Nat → Nat) :
    ∀ (bks perms : List (List Nat)), perms.length = bks.length →
      ∀ t ∈ zip3 bks perms (bks.map f), t.2.2 = f t.1 := by
  intro bks
  induction bks with
  | nil => intro perms _ t ht; cases ht
  | cons b bt ih =>
    intro perms hlen t ht
    cases perms with
    | nil => cases ht
    | cons p pt =>
      rw [List.map_cons, zip3_cons] at ht
      rcases List.mem_cons.mp ht with h2 | h2
      · rw [h2]
      · exact ih pt (by simpa using hlen) t h2

theorem zip3_map_third :
    ∀ (bks perms : List (List Nat)) (nsbs : List Nat),
      perms.length = bks.length → nsbs.length = bks.length →
      (zip3 bks perms nsbs).map (fun t => t.2.2) = nsbs := by
  intro bks
  induction bks with
  | nil =>
    intro perms nsbs _ hn
    have : nsbs = [] := List.length_eq_zero.mp (by simpa using hn)
    subst this
    rfl
  | cons b bt ih =>
    intro perms nsbs hp hn
    cases perms with
    | nil => simp at hp
    | cons p pt =>
      cases nsbs with
      | nil => simp at hn
      | cons n nt =>
        rw [zip3_cons, List.map_cons, ih pt nt (by simpa using hp) (by simpa using hn)]

/-- The invariant of one bucket-loop triple: the index list is as long as
the bucket, the padded count comes from padCount, and every index is a
valid bucket position. -/
def GoodTriple (tbs : Nat) (t : List Nat × List Nat × Nat) : Prop :=
  t.2.1.length = t.1.length ∧ t.2.2 = padCount tbs t.1.length
    ∧ ∀ idx ∈ t.2.1, idx < t.1.length

theorem zip3_good (rp : RngModel) (hrp : IsPermGen rp) (ep : Nat) (shuffle : Bool)
    (bks : List (List Nat)) (tbs : Nat) :
    ∀ t ∈ zip3 bks (epochState rp ep shuffle bks).1
        (bks.map (fun b => padCount tbs b.length)), GoodTriple tbs t := by
  intro t ht
  have hperm := epochState_perm rp hrp ep shuffle bks
    (bks.map (fun b => padCount tbs b.length)) t ht
  refine ⟨hperm.length_eq.trans (List.length_range _), ?_,
    fun idx hidx => List.mem_range.mp (hperm.mem_iff.mp hidx)⟩
  exact zip3_nsb _ bks _ (epochState_length rp ep shuffle bks) t ht

theorem shard_length_of_good (bs nr r : Nat) (hbs : 0 < bs) (hnr : 0 < nr) (hr : r < nr)
    (bucket ids : List Nat) (nsb : Nat) (hids : ids.length = bucket.length)
    (hnsb : nsb = padCount (nr * bs) bucket.length) (hne : ¬ bucket.isEmpty = true) :
    (strideEvery (padIds ids bucket.length nsb) r nr).length = nsb / nr
      ∧ bs ∣ nsb / nr := by
  have hbne : bucket ≠ [] := fun h => hne (by rw [h]; rfl)
  have hL : 0 < bucket.length := List.length_pos.mpr hbne
  have htbs : 0 < nr * bs := Nat.mul_pos hnr hbs
  have h0 : 0 < ids.length := by omega
  have hple : ids.length ≤ nsb := by
    rw [hids, hnsb]
    exact padCount_le _ _
  have hpad : (padIds ids bucket.length nsb).length = nsb := by
    rw [← hids]
    exact padIds_length ids nsb h0 hple
  have hdvd2 : (nr * bs) ∣ nsb := by
    rw [hnsb]
    exact padCount_dvd _ _ htbs
  have hdvdnr : nr ∣ nsb := dvd_trans (dvd_mul_right nr bs) hdvd2
  constructor
  · rw [strideEvery_length nr hnr, hpad, stride_len_div nsb nr r hnr hr hdvdnr]
  · obtain ⟨w, hw⟩ := hdvd2
    refine ⟨w, ?_⟩
    rw [hw, Nat.mul_assoc, Nat.mul_div_cancel_left _ hnr]

theorem batchesOfBuckets_flatten (bs nr r : Nat) (hbs : 0 < bs) (hnr : 0 < nr)
    (hr : r < nr) :
    ∀ (trip : List (List Nat × List Nat × Nat)), (∀ t ∈ trip, GoodTriple (nr * bs) t) →
      (batchesOfBuckets bs nr r trip).flatten
        = trip.flatMap (fun t => if t.1.isEmpty then ([] : List Nat)
            else (strideEvery (padIds t.2.1 t.1.length t.2.2) r nr).map
              (fun idx => t.1.getD idx 0)) := by
  intro trip
  induction trip with
  | nil => intro _; rfl
  | cons hd tl ih =>
    intro hgood
    obtain ⟨bucket, ids, nsb⟩ := hd
    rw [batchesOfBuckets, List.flatMap_cons]
    by_cases hemp : bucket.isEmpty
    · rw [if_pos hemp, if_pos hemp, List.nil_append]
      exact ih (fun t ht => hgood t (List.mem_cons_of_mem _ ht))
    · rw [if_neg hemp, if_neg hemp, List.flatten_append,
        ih (fun t ht => hgood t (List.mem_cons_of_mem _ ht))]
      congr 1
      rw [bucketBatches, ← List.map_flatten]
      obtain ⟨h1, h2, _⟩ := hgood (bucket, ids, nsb) (List.mem_cons_self _ _)
      have hsh := shard_length_of_good bs nr r hbs hnr hr bucket ids nsb h1 h2 hemp
      have hdl : bs ∣ (strideEvery (padIds ids bucket.length nsb) r nr).length := by
        rw [hsh.1]
        exact hsh.2
      rw [chunkList_flatten bs hbs _ _ rfl hdl]

theorem batchesOfBuckets_length (bs nr r : Nat) (hbs : 0 < bs) (hnr : 0 < nr)
    (hr : r < nr) :
    ∀ (trip : List (List Nat × List Nat × Nat)), (∀ t ∈ trip, GoodTriple (nr * bs) t) →
      (batchesOfBuckets bs nr r trip).length
        = (trip.map (fun t => t.2.2 / nr / bs)).sum := by
  intro trip
  induction trip with
  | nil => intro _; rfl
  | cons hd tl ih =>
    intro hgood
    obtain ⟨bucket, ids, nsb⟩ := hd
    rw [batchesOfBuckets, List.map_cons, List.sum_cons]
    by_cases hemp : bucket.isEmpty
    · rw [if_pos hemp, ih (fun t ht => hgood t (List.mem_cons_of_mem _ ht))]
      have hb : bucket = [] := List.isEmpty_eq_true.mp hemp
      have h2 : nsb = padCount (nr * bs) bucket.length :=
        (hgood (bucket, ids, nsb) (List.mem_cons_self _ _)).2.1
      have h3 : nsb = 0 := by
        rw [h2, hb]
        exact padCount_zero _
      rw [h3, Nat.zero_div, Nat.zero_div, Nat.zero_add]
    · rw [if_neg hemp, List.length_append, bucketBatches, List.length_map,
        chunkList_length, ih (fun t ht => hgood t (List.mem_cons_of_mem _ ht))]
      obtain ⟨h1, h2, _⟩ := hgood (bucket, ids, nsb) (List.mem_cons_self _ _)
      have hsh := shard_length_of_good bs nr r hbs hnr hr bucket ids nsb h1 h2 hemp
      rw [hsh.1]

theorem batchesOfBuckets_batch (bs nr r : Nat) (hbs : 0 < bs) (hnr : 0 < nr)
    (hr : r < nr) :
    ∀ (trip : List (List Nat × List Nat × Nat)), (∀ t ∈ trip, GoodTriple (nr * bs) t) →
      ∀ bt ∈ batchesOfBuckets bs nr r trip,
        bt.length = bs ∧ ∃ t ∈ trip, ∀ x ∈ bt, x ∈ t.1 := by
  intro trip
  induction trip with
  | nil => intro _ bt hbt; cases hbt
  | cons hd tl ih =>
    intro hgood bt hbt
    obtain ⟨bucket, ids, nsb⟩ := hd
    rw [batchesOfBuckets] at hbt
    by_cases hemp : bucket.isEmpty
    · rw [if_pos hemp] at hbt
      obtain ⟨hlen, t, ht, hmem⟩ := ih (fun t ht => hgood t (List.mem_cons_of_mem _ ht)) bt hbt
      exact ⟨hlen, t, List.mem_cons_of_mem _ ht, hmem⟩
    · rw [if_neg hemp] at hbt
      rcases List.mem_append.mp hbt with h2 | h2
      · rw [bucketBatches] at h2
        rcases List.mem_map.mp h2 with ⟨ch, hch, rfl⟩
        have hvalid : ∀ idx ∈ ids, idx < bucket.length :=
          (hgood (bucket, ids, nsb) (List.mem_cons_self _ _)).2.2
        constructor
        · rw [List.length_map]
          exact chunkList_mem_length _ bs hbs ch hch
        · refine ⟨(bucket, ids, nsb), List.mem_cons_self _ _, ?_⟩
          intro x hx
          rcases List.mem_map.mp hx with ⟨idx, hidx, rfl⟩
          have hidx2 : idx ∈ ids :=
            padIds_subset ids bucket.length nsb idx
              (strideEvery_subset _ r nr idx (chunkList_subset _ bs ch idx hch hidx))
          exact getD_mem_of_lt bucket idx 0 (hvalid idx hidx2)
      · obtain ⟨hlen, t, ht, hmem⟩ := ih (fun t ht => hgood t (List.mem_cons_of_mem _ ht)) bt h2
        exact ⟨hlen, t, List.mem_cons_of_mem _ ht, hmem⟩

theorem nsb_dvd_of_mem (lengths bnd : List Nat) (nr bs : Nat) (h : 0 < nr * bs) :
    ∀ m ∈ (createBuckets lengths bnd nr bs).2.1, (nr * bs) ∣ m := by
  intro m hm
  have hm2 : m ∈ (createBuckets lengths bnd nr bs).1.map
      (fun b => padCount (nr * bs) b.length) := hm
  rcases List.mem_map.mp hm2 with ⟨b, _, rfl⟩
  exact padCount_dvd _ _ h

/-- C5: every emitted batch has exactly batch_size indices all drawn from
one bucket, the epoch emits exactly num_samples indices in
num_samples / batch_size batches, and the closing assertion
len(batches) * batch_size == num_samples always holds. -/
theorem c5_batch_shape (rp : RngModel) (lengths bnd : List Nat) (bs nr rank ep : Nat)
    (shuffle : Bool) (hrp : IsPermGen rp) (hbs : 0 < bs) (hnr : 0 < nr)
    (hrk : rank < nr) :
    (∀ bt ∈ (iterStep rp (setEpoch (mkSampler lengths bs bnd nr rank shuffle) ep)).1,
        bt.length = bs ∧ ∃ bk ∈ (mkSampler lengths bs bnd nr rank shuffle).buckets,
          ∀ x ∈ bt, x ∈ bk)
      ∧ ((iterStep rp (setEpoch (mkSampler lengths bs bnd nr rank shuffle) ep)).1.flatten).length
          = (mkSampler lengths bs bnd nr rank shuffle).numSamples
      ∧ (iterStep rp (setEpoch (mkSampler lengths bs bnd nr rank shuffle) ep)).1.length
          = (mkSampler lengths bs bnd nr rank shuffle).numSamples / bs
      ∧ (iterStep rp (setEpoch (mkSampler lengths bs bnd nr rank shuffle) ep)).1.length * bs
          = (mkSampler lengths bs bnd nr rank shuffle).numSamples := by
  have htbs : 0 < nr * bs := Nat.mul_pos hnr hbs
  have hgood : ∀ t ∈ zip3 (createBuckets lengths bnd nr bs).1
      (epochState rp ep shuffle (createBuckets lengths bnd nr bs).1).1
      (createBuckets lengths bnd nr bs).2.1, GoodTriple (nr * bs) t :=
    zip3_good rp hrp ep shuffle (createBuckets lengths bnd nr bs).1 (nr * bs)
  have hdvdq : ∀ x ∈ (createBuckets lengths bnd nr bs).2.1.map (fun n => n / nr),
      bs ∣ x := by
    intro x hx
    rcases List.mem_map.mp hx with ⟨m, hm, rfl⟩
    obtain ⟨w, hw⟩ := nsb_dvd_of_mem lengths bnd nr bs htbs m hm
    rw [hw, Nat.mul_assoc, Nat.mul_div_cancel_left _ hnr]
    exact dvd_mul_right bs w
  have hsum1 : ((createBuckets lengths bnd nr bs).2.1.map (fun n => n / nr)).sum
      = (createBuckets lengths bnd nr bs).2.1.sum / nr :=
    sum_div_of_dvd nr hnr _ (fun x hx =>
      dvd_trans (dvd_mul_right nr bs) (nsb_dvd_of_mem lengths bnd nr bs htbs x hx))
  have hblen : (batchesOfBuckets bs nr rank (zip3 (createBuckets lengths bnd nr bs).1
      (epochState rp ep shuffle (createBuckets lengths bnd nr bs).1).1
      (createBuckets lengths bnd nr bs).2.1)).length
      = (createBuckets lengths bnd nr bs).2.1.sum / nr / bs := by
    rw [batchesOfBuckets_length bs nr rank hbs hnr hrk _ hgood]
    have e1 : List.map (fun (t : List Nat × List Nat × Nat) => t.2.2 / nr / bs)
        (zip3 (createBuckets lengths bnd nr bs).1
          (epochState rp ep shuffle (createBuckets lengths bnd nr bs).1).1
          (createBuckets lengths bnd nr bs).2.1)
        = List.map (fun n => n / nr / bs)
          (List.map (fun (t : List Nat × List Nat × Nat) => t.2.2)
            (zip3 (createBuckets lengths bnd nr bs).1
              (epochState rp ep shuffle (createBuckets lengths bnd nr bs).1).1
              (createBuckets lengths bnd nr bs).2.1)) := by
      rw [List.map_map]
      exact List.map_congr_left (fun t _ => rfl)
    have hnlen : (createBuckets lengths bnd nr bs).2.1.length
        = (createBuckets lengths bnd nr bs).1.length := List.length_map _ _
    have hthird : List.map (fun (t : List Nat × List Nat × Nat) => t.2.2)
        (zip3 (createBuckets lengths bnd nr bs).1
          (epochState rp ep shuffle (createBuckets lengths bnd nr bs).1).1
          (createBuckets lengths bnd nr bs).2.1)
        = (createBuckets lengths bnd nr bs).2.1 :=
      zip3_map_third _ _ _
        (epochState_length rp ep shuffle (createBuckets lengths bnd nr bs).1) hnlen
    have e2 : List.map (fun n => n / nr / bs) (createBuckets lengths bnd nr bs).2.1
        = List.map (fun m => m / bs)
          (List.map (fun n => n / nr) (createBuckets lengths bnd nr bs).2.1) := by
      rw [List.map_map]
      exact List.map_congr_left (fun t _ => rfl)
    rw [e1, hthird, e2, sum_div_of_dvd bs hbs _ hdvdq, hsum1]
  have hbatch := batchesOfBuckets_batch bs nr rank hbs hnr hrk _ hgood
  have hflat : ((batchesOfBuckets bs nr rank (zip3 (createBuckets lengths bnd nr bs).1
      (epochState rp ep shuffle (createBuckets lengths bnd nr bs).1).1
      (createBuckets lengths bnd nr bs).2.1)).flatten).length
      = (batchesOfBuckets bs nr rank (zip3 (createBuckets lengths bnd nr bs).1
        (epochState rp ep shuffle (createBuckets lengths bnd nr bs).1).1
        (createBuckets lengths bnd nr bs).2.1)).length * bs :=
    flatten_length_const bs _ (fun b hb => (hbatch b hb).1)
  have hnsdvd : bs ∣ (mkSampler lengths bs bnd nr rank shuffle).numSamples := by
    have h1 : bs ∣ ((createBuckets lengths bnd nr bs).2.1.map (fun n => n / nr)).sum :=
      List.dvd_sum hdvdq
    rw [hsum1] at h1
    exact h1
  have hns : (mkSampler lengths bs bnd nr rank shuffle).numSamples
      = (createBuckets lengths bnd nr bs).2.1.sum / nr := rfl
  rw [iterStep_mk]
  cases shuffle with
  | false =>
    simp only [Bool.false_eq_true, if_false]
    refine ⟨?_, ?_, ?_, ?_⟩
    · intro bt hbt
      obtain ⟨hlen, t, ht, hmem⟩ := hbatch bt hbt
      exact ⟨hlen, t.1, zip3_mem_left t _ _ _ ht, hmem⟩
    · rw [hflat, hblen, hns, Nat.div_mul_cancel]
      rw [← hns]
      exact hnsdvd
    · rw [hblen, hns]
    · rw [hblen, hns, Nat.div_mul_cancel]
      rw [← hns]
      exact hnsdvd
  | true =>
    simp only [if_pos]
    have hperm : ((rp (epochState rp ep true (createBuckets lengths bnd nr bs).1).2
        (batchesOfBuckets bs nr rank (zip3 (createBuckets lengths bnd nr bs).1
          (epochState rp ep true (createBuckets lengths bnd nr bs).1).1
          (createBuckets lengths bnd nr bs).2.1)).length).1.map
        (fun i => (batchesOfBuckets bs nr rank (zip3 (createBuckets lengths bnd nr bs).1
          (epochState rp ep true (createBuckets lengths bnd nr bs).1).1
          (createBuckets lengths bnd nr bs).2.1)).getD i [])).Perm
        (batchesOfBuckets bs nr rank (zip3 (createBuckets lengths bnd nr bs).1
          (epochState rp ep true (createBuckets lengths bnd nr bs).1).1
          (createBuckets lengths bnd nr bs).2.1)) :=
      map_getD_perm _ _ (hrp _ _)
    refine ⟨?_, ?_, ?_, ?_⟩
    · intro bt hbt
      obtain ⟨hlen, t, ht, hmem⟩ := hbatch bt (hperm.mem_iff.mp hbt)
      exact ⟨hlen, t.1, zip3_mem_left t _ _ _ ht, hmem⟩
    · rw [(hperm.flatten).length_eq, hflat, hblen, hns, Nat.div_mul_cancel]
      rw [← hns]
      exact hnsdvd
    · rw [hperm.length_eq, hblen, hns]
    · rw [hperm.length_eq, hblen, hns, Nat.div_mul_cancel]
      rw [← hns]
      exact hnsdvd

theorem c5_batch_shape_witness :
    ((iterStep idGen (setEpoch (mkSampler [5, 6, 7] 2 [4, 10] 2 0 true) 3)).1.flatten).length
        = (mkSampler [5, 6, 7] 2 [4, 10] 2 0 true).numSamples
      ∧ (iterStep idGen (setEpoch (mkSampler [5, 6, 7] 2 [4, 10] 2 0 true) 3)).1.length * 2
          = (mkSampler [5, 6, 7] 2 [4, 10] 2 0 true).numSamples :=
  ⟨(c5_batch_shape idGen [5, 6, 7] [4, 10] 2 2 0 3 true
      (fun st n => List.Perm.refl _) (by decide) (by decide) (by decide)).2.1,
   (c5_batch_shape idGen [5, 6, 7] [4, 10] 2 2 0 3 true
      (fun st n => List.Perm.refl _) (by decide) (by decide) (by decide)).2.2.2⟩

/-! ### The replica partition -/

theorem flatMap_const_nil {β γ : Type} :
    ∀ (L : List β), (L.flatMap fun _ => ([] : List γ)) = [] := by
  intro L
  induction L with
  | nil => rfl
  | cons a t ih => rw [List.flatMap_cons, ih, List.nil_append]

theorem strideEvery_partition {α : Type} :
    ∀ (l : List α) (n : Nat), 0 < n →
      (((List.range n).flatMap (fun r => strideEvery l r n))).Perm l := by
  intro l
  induction l with
  | nil =>
    intro n hn
    have e : (fun r => strideEvery ([] : List α) r n) = fun _ => ([] : List α) :=
      funext fun r => rfl
    rw [e, flatMap_const_nil]
  | cons a t ih =>
    intro n hn
    obtain ⟨m, rfl⟩ : ∃ m, n = m + 1 := ⟨n - 1, by omega⟩
    rw [List.range_succ_eq_map, List.flatMap_cons]
    have h1 : strideEvery (a :: t) 0 (m + 1) = a :: strideEvery t m (m + 1) := rfl
    rw [h1, List.flatMap_map]
    have h3 : (fun r => strideEvery (a :: t) (Nat.succ r) (m + 1))
        = fun r => strideEvery t r (m + 1) := funext fun r => rfl
    rw [h3, List.cons_append]
    apply List.Perm.cons
    have hcomm : (strideEvery t m (m + 1)
        ++ ((List.range m).flatMap fun r => strideEvery t r (m + 1))).Perm
        (((List.range m).flatMap fun r => strideEvery t r (m + 1))
          ++ strideEvery t m (m + 1)) :=
      List.perm_append_comm
    have heq : ((List.range m).flatMap fun r => strideEvery t r (m + 1))
        ++ strideEvery t m (m + 1)
        = (List.range (m + 1)).flatMap (fun r => strideEvery t r (m + 1)) := by
      rw [List.range_succ, List.flatMap_append, List.flatMap_cons, List.flatMap_nil,
        List.append_nil]
    rw [heq] at hcomm
    exact hcomm.trans (ih (m + 1) (by omega))

theorem flatMap_swap_perm {α β γ : Type} :
    ∀ (T : List α) (R : List β) (f : α → β → List γ),
      (R.flatMap (fun r => T.flatMap (fun t => f t r))).Perm
        (T.flatMap (fun t => R.flatMap (f t))) := by
  intro T
  induction T with
  | nil =>
    intro R f
    have e : (fun r => ([] : List α).flatMap (fun t => f t r)) = fun _ => ([] : List γ) :=
      funext fun r => rfl
    rw [e, flatMap_const_nil, List.flatMap_nil]
  | cons t0 T2 ih =>
    intro R f
    have h1 : (fun r => (t0 :: T2).flatMap fun t => f t r)
        = fun r => f t0 r ++ T2.flatMap fun t => f t r :=
      funext fun r => List.flatMap_cons _ _ _
    rw [h1, List.flatMap_cons]
    have h2 : (R.flatMap fun r => f t0 r ++ T2.flatMap fun t => f t r).Perm
        (R.flatMap (fun r => f t0 r) ++ R.flatMap (fun r => T2.flatMap fun t => f t r)) :=
      (List.flatMap_append_perm R _ _).symm
    have h3 : (R.flatMap (fun r => f t0 r)
        ++ R.flatMap (fun r => T2.flatMap fun t => f t r)).Perm
        (R.flatMap (f t0) ++ T2.flatMap (fun t => R.flatMap (f t))) :=
      List.Perm.append_left _ (ih R f)
    exact h2.trans h3

theorem rank_flatten_perm (rp : RngModel) (lengths bnd : List Nat) (bs nr ep : Nat)
    (shuffle : Bool) (hrp : IsPermGen rp) (hbs : 0 < bs) (hnr : 0 < nr)
    (r : Nat) (hr : r < nr) :
    ((iterStep rp (setEpoch (mkSampler lengths bs bnd nr r shuffle) ep)).1.flatten).Perm
      ((zip3 (createBuckets lengths bnd nr bs).1
          (epochState rp ep shuffle (createBuckets lengths bnd nr bs).1).1
          (createBuckets lengths bnd nr bs).2.1).flatMap
        (fun t => if t.1.isEmpty then ([] : List Nat)
          else (strideEvery (padIds t.2.1 t.1.length t.2.2) r nr).map
            (fun idx => t.1.getD idx 0))) := by
  have hgood : ∀ t ∈ zip3 (createBuckets lengths bnd nr bs).1
      (epochState rp ep shuffle (createBuckets lengths bnd nr bs).1).1
      (createBuckets lengths bnd nr bs).2.1, GoodTriple (nr * bs) t :=
    zip3_good rp hrp ep shuffle (createBuckets lengths bnd nr bs).1 (nr * bs)
  rw [iterStep_mk]
  cases shuffle with
  | false =>
    simp only [Bool.false_eq_true, if_false]
    rw [batchesOfBuckets_flatten bs nr r hbs hnr hr _ hgood]
  | true =>
    rw [if_pos rfl]
    have hperm := map_getD_perm (batchesOfBuckets bs nr r
      (zip3 (createBuckets lengths bnd nr bs).1
        (epochState rp ep true (createBuckets lengths bnd nr bs).1).1
        (createBuckets lengths bnd nr bs).2.1))
      ((rp (epochState rp ep true (createBuckets lengths bnd nr bs).1).2
        (batchesOfBuckets bs nr r (zip3 (createBuckets lengths bnd nr bs).1
          (epochState rp ep true (createBuckets lengths bnd nr bs).1).1
          (createBuckets lengths bnd nr bs).2.1)).length).1)
      (hrp _ _)
    have h2 := hperm.flatten
    rw [batchesOfBuckets_flatten bs nr r hbs hnr hr _ hgood] at h2
    exact h2

/-- C2: for a fixed epoch, the multiset of sample indices over all ranks'
emitted batches equals the multiset of all buckets' padded tiles (as a
list permutation); rank r reads the padded positions r + j*num_replicas,
and the position sets of two distinct ranks never coincide. -/
theorem c2_replica_partition (rp : RngModel) (lengths bnd : List Nat) (bs nr ep : Nat)
    (shuffle : Bool) (hrp : IsPermGen rp) (hbs : 0 < bs) (hnr : 0 < nr) :
    (((List.range nr).flatMap (fun r =>
        (iterStep rp (setEpoch (mkSampler lengths bs bnd nr r shuffle) ep)).1.flatten)).Perm
      ((zip3 (createBuckets lengths bnd nr bs).1
          (epochState rp ep shuffle (createBuckets lengths bnd nr bs).1).1
          (createBuckets lengths bnd nr bs).2.1).flatMap
        (fun t => tileOf t.1 t.2.1 t.2.2)))
      ∧ (∀ (l : List Nat) (r j : Nat),
          (strideEvery l r nr).getD j 0 = l.getD (r + j * nr) 0)
      ∧ (∀ r1 r2 j1 j2 : Nat, r1 < nr → r2 < nr → r1 ≠ r2 →
          r1 + j1 * nr ≠ r2 + j2 * nr) := by
  refine ⟨?_, fun l r j => strideEvery_getD nr hnr l r j, ?_⟩
  · have hstep1 : ∀ r ∈ List.range nr,
        ((iterStep rp (setEpoch (mkSampler lengths bs bnd nr r shuffle) ep)).1.flatten).Perm
          ((zip3 (createBuckets lengths bnd nr bs).1
              (epochState rp ep shuffle (createBuckets lengths bnd nr bs).1).1
              (createBuckets lengths bnd nr bs).2.1).flatMap
            (fun t => if t.1.isEmpty then ([] : List Nat)
              else (strideEvery (padIds t.2.1 t.1.length t.2.2) r nr).map
                (fun idx => t.1.getD idx 0))) :=
      fun r hr2 => rank_flatten_perm rp lengths bnd bs nr ep shuffle hrp hbs hnr r
        (List.mem_range.mp hr2)
    have hA : ((List.range nr).flatMap (fun r =>
        (iterStep rp (setEpoch (mkSampler lengths bs bnd nr r shuffle) ep)).1.flatten)).Perm
        ((List.range nr).flatMap (fun r =>
          (zip3 (createBuckets lengths bnd nr bs).1
              (epochState rp ep shuffle (createBuckets lengths bnd nr bs).1).1
              (createBuckets lengths bnd nr bs).2.1).flatMap
            (fun t => if t.1.isEmpty then ([] : List Nat)
              else (strideEvery (padIds t.2.1 t.1.length t.2.2) r nr).map
                (fun idx => t.1.getD idx 0)))) :=
      List.Perm.flatMap_left _ hstep1
    have hB : ((List.range nr).flatMap (fun r =>
        (zip3 (createBuckets lengths bnd nr bs).1
            (epochState rp ep shuffle (createBuckets lengths bnd nr bs).1).1
            (createBuckets lengths bnd nr bs).2.1).flatMap
          (fun t => if t.1.isEmpty then ([] : List Nat)
            else (strideEvery (padIds t.2.1 t.1.length t.2.2) r nr).map
              (fun idx => t.1.getD idx 0)))).Perm
        ((zip3 (createBuckets lengths bnd nr bs).1
            (epochState rp ep shuffle (createBuckets lengths bnd nr bs).1).1
            (createBuckets lengths bnd nr bs).2.1).flatMap
          (fun t => (List.range nr).flatMap (fun r =>
            if t.1.isEmpty then ([] : List Nat)
            else (strideEvery (padIds t.2.1 t.1.length t.2.2) r nr).map
              (fun idx => t.1.getD idx 0)))) :=
      flatMap_swap_perm _ (List.range nr)
        (fun (t : List Nat × List Nat × Nat) (r : Nat) =>
          if t.1.isEmpty then ([] : List Nat)
          else (strideEvery (padIds t.2.1 t.1.length t.2.2) r nr).map
            (fun idx => t.1.getD idx 0))
    have hC : ∀ t ∈ zip3 (createBuckets lengths bnd nr bs).1
        (epochState rp ep shuffle (createBuckets lengths bnd nr bs).1).1
        (createBuckets lengths bnd nr bs).2.1,
        (((List.range nr).flatMap (fun r =>
          if t.1.isEmpty then ([] : List Nat)
          else (strideEvery (padIds t.2.1 t.1.length t.2.2) r nr).map
            (fun idx => t.1.getD idx 0)))).Perm (tileOf t.1 t.2.1 t.2.2) := by
      intro t _
      by_cases hemp : t.1.isEmpty
      · have e : (fun r => if t.1.isEmpty then ([] : List Nat)
            else (strideEvery (padIds t.2.1 t.1.length t.2.2) r nr).map
              (fun idx => t.1.getD idx 0)) = fun _ => ([] : List Nat) :=
          funext fun r => if_pos hemp
        rw [e, flatMap_const_nil, tileOf, if_pos hemp]
      · have e : (fun r => if t.1.isEmpty then ([] : List Nat)
            else (strideEvery (padIds t.2.1 t.1.length t.2.2) r nr).map
              (fun idx => t.1.getD idx 0))
            = fun r => (strideEvery (padIds t.2.1 t.1.length t.2.2) r nr).map
              (fun idx => t.1.getD idx 0) :=
          funext fun r => if_neg hemp
        rw [e, tileOf, if_neg hemp]
        have e2 : ((List.range nr).flatMap fun r =>
            (strideEvery (padIds t.2.1 t.1.length t.2.2) r nr).map
              (fun idx => t.1.getD idx 0))
            = ((List.range nr).flatMap fun r =>
                strideEvery (padIds t.2.1 t.1.length t.2.2) r nr).map
              (fun idx => t.1.getD idx 0) :=
          (List.map_flatMap _ _ _).symm
        rw [e2]
        exact (strideEvery_partition _ nr hnr).map _
    have hD : ((zip3 (createBuckets lengths bnd nr bs).1
        (epochState rp ep shuffle (createBuckets lengths bnd nr bs).1).1
        (createBuckets lengths bnd nr bs).2.1).flatMap
          (fun t => (List.range nr).flatMap (fun r =>
            if t.1.isEmpty then ([] : List Nat)
            else (strideEvery (padIds t.2.1 t.1.length t.2.2) r nr).map
              (fun idx => t.1.getD idx 0)))).Perm
        ((zip3 (createBuckets lengths bnd nr bs).1
            (epochState rp ep shuffle (createBuckets lengths bnd nr bs).1).1
            (createBuckets lengths bnd nr bs).2.1).flatMap
          (fun t => tileOf t.1 t.2.1 t.2.2)) :=
      List.Perm.flatMap_left _ hC
    exact hA.trans (hB.trans hD)
  · intro r1 r2 j1 j2 hr1 hr2 hne heq
    have h1 : (r1 + j1 * nr) % nr = r1 := by
      rw [Nat.add_mul_mod_self_right]
      exact Nat.mod_eq_of_lt hr1
    have h2 : (r2 + j2 * nr) % nr = r2 := by
      rw [Nat.add_mul_mod_self_right]
      exact Nat.mod_eq_of_lt hr2
    rw [heq, h2] at h1
    exact hne h1.symm

theorem c2_replica_partition_witness :
    (((List.range 2).flatMap (fun r =>
        (iterStep idGen (setEpoch (mkSampler [5, 6, 7] 2 [4, 10] 2 r true) 0)).1.flatten)).Perm
      ((zip3 (createBuckets [5, 6, 7] [4, 10] 2 2).1
          (epochState idGen 0 true (createBuckets [5, 6, 7] [4, 10] 2 2).1).1
          (createBuckets [5, 6, 7] [4, 10] 2 2).2.1).flatMap
        (fun t => tileOf t.1 t.2.1 t.2.2)))
      ∧ (strideEvery [9, 8, 7, 6] 1 2).getD 1 0 = [9, 8, 7, 6].getD (1 + 1 * 2) 0
      ∧ 0 + 2 * 2 ≠ 1 + 3 * 2 :=
  ⟨(c2_replica_partition idGen [5, 6, 7] [4, 10] 2 2 0 true
      (fun st n => List.Perm.refl _) (by decide) (by decide)).1,
   (c2_replica_partition idGen [5, 6, 7] [4, 10] 2 2 0 true
      (fun st n => List.Perm.refl _) (by decide) (by decide)).2.1 [9, 8, 7, 6] 1 1,
   (c2_replica_partition idGen [5, 6, 7] [4, 10] 2 2 0 true
      (fun st n => List.Perm.refl _) (by decide) (by decide)).2.2 0 1 2 3
     (by decide) (by decide) (by decide)⟩
